import Mathlib

/-!
Verification development for the profile normalization and aggregation engine
of `dashboardlinkedin.py`.

The Python source is shallowly embedded: strings are `List Char`, Python
dictionaries (profiles, oracle records) are association lists with
`List.lookup`, fallible dictionary indexing is `Except Unit`, and the
external normalization oracle is a parameter mapping a batch of profiles to
a response.  Python text primitives (`str.lower`, `str.strip`, `str.split`,
`int(...)`, substring tests) are embedded as executable functions below;
`str.lower` is modelled on ASCII and Latin-1 letters (the ranges exercised
by the data, which is Portuguese text) and `str.strip` / `int` on ASCII
whitespace, as documented at each definition.
-/

namespace Dash

/-- Python strings are modelled as lists of characters. -/
abbrev Str := List Char

/-- Coerce a Lean string literal to the model type. -/
def cs (s : String) : Str := s.data

/-- Embedding of Python `str.lower` on one character: ASCII letters `A`-`Z`
and Latin-1 capitals `À`-`Þ` (except the multiplication sign `×`) map to
their lowercase forms; every other character is returned unchanged. -/
def lowerChar (c : Char) : Char :=
  if 65 ≤ c.toNat ∧ c.toNat ≤ 90 then Char.ofNat (c.toNat + 32)
  else if 192 ≤ c.toNat ∧ c.toNat ≤ 222 ∧ c.toNat ≠ 215 then Char.ofNat (c.toNat + 32)
  else c

/-- Embedding of Python `str.lower`. -/
def pyLower (s : Str) : Str := s.map lowerChar

/-- Whitespace characters recognized by the embedding of `str.strip` and
`int(...)`: space, tab, newline, vertical tab, form feed, carriage return. -/
def isPySpace (c : Char) : Bool :=
  c.toNat == 32 || c.toNat == 9 || c.toNat == 10 || c.toNat == 11 || c.toNat == 12 || c.toNat == 13

/-- Embedding of Python `str.strip()`: drop whitespace from both ends. -/
def pyStrip (s : Str) : Str :=
  ((s.dropWhile isPySpace).reverse.dropWhile isPySpace).reverse

/-- Embedding of Python `str.replace(old, new)` for one-character patterns. -/
def pyReplace (old new : Char) (s : Str) : Str :=
  s.map fun c => if c = old then new else c

/-- Embedding of Python `str.split(sep)` for a one-character separator:
splits at every occurrence, keeping empty parts, and yields `[s]` when the
separator is absent (in particular `[""]` on the empty string). -/
def splitOnChar (sep : Char) : Str → List Str
  | [] => [[]]
  | c :: rest =>
    if c = sep then [] :: splitOnChar sep rest
    else
      match splitOnChar sep rest with
      | h :: t => (c :: h) :: t
      | [] => [[c]]

/-- Bool test that the character `c` occurs in the string (Python `c in s`
for a one-character pattern). -/
def hasChar (c : Char) (l : Str) : Bool := l.any fun x => x == c

/-- Bool test that `pat` occurs at the start of `s`. -/
def startsList (pat s : Str) : Bool :=
  match pat, s with
  | [], _ => true
  | _ :: _, [] => false
  | a :: as, b :: bs => a == b && startsList as bs

/-- Embedding of Python substring containment `pat in s`. -/
def hasSubstr (pat : Str) : Str → Bool
  | [] => pat.isEmpty
  | c :: rest => startsList pat (c :: rest) || hasSubstr pat rest

/-- Value of an ASCII decimal digit. -/
def digitVal (c : Char) : Option Nat :=
  if 48 ≤ c.toNat ∧ c.toNat ≤ 57 then some (c.toNat - 48) else none

/-- Digit-sequence tail of the embedding of Python `int(...)`: consumes
decimal digits, allowing a single underscore between two digits. -/
def pyDigitsGo (acc : Nat) : Str → Option Nat
  | [] => some acc
  | '_' :: c :: rest =>
    match digitVal c with
    | some d => pyDigitsGo (acc * 10 + d) rest
    | none => none
  | c :: rest =>
    match digitVal c with
    | some d => pyDigitsGo (acc * 10 + d) rest
    | none => none

/-- Nonempty digit sequence (with medial underscores) of Python `int(...)`. -/
def pyDigits : Str → Option Nat
  | [] => none
  | c :: rest =>
    match digitVal c with
    | some d => pyDigitsGo d rest
    | none => none

/-- Embedding of Python `int(s)` on strings: surrounding whitespace is
stripped, an optional sign is followed by a nonempty digit sequence in which
single underscores may separate digits; anything else raises `ValueError`,
modelled as `none`. -/
def pyInt (s : Str) : Option Int :=
  match pyStrip s with
  | '+' :: r => (pyDigits r).map Int.ofNat
  | '-' :: r => (pyDigits r).map fun n => -(Int.ofNat n)
  | r => (pyDigits r).map Int.ofNat

/-- The normalization that `extrair_mes` applies to its argument before the
sentinel test: lowercase, then replace `ã` by `a` and `õ` by `o`. -/
def normAniv (s : Str) : Str :=
  pyReplace 'õ' 'o' (pyReplace 'ã' 'a' (pyLower s))

/-- Embedding of `extrair_mes` (source lines 54-66): after normalizing the
input, return `none` when the substring `informado` occurs; otherwise split
the ORIGINAL string on `/`, parse the second part with `int`, and return it
when it lies in `[1, 12]`; every failure path returns `none`. -/
def extrair_mes (aniversario : Str) : Option Int :=
  if hasSubstr (cs "informado") (normAniv aniversario) then none
  else
    let partes := splitOnChar '/' aniversario
    if 2 ≤ partes.length then
      match pyInt (partes.getD 1 []) with
      | some mes => if 1 ≤ mes ∧ mes ≤ 12 then some mes else none
      | none => none
    else none

/-- Embedding of `extrair_estado` (source lines 68-75).  The argument is
`none` when the Python value is missing/NaN (`pd.isna`).  Note the final
branch returns the input unchanged, without stripping. -/
def extrair_estado (loc : Option Str) : Str :=
  match loc with
  | none => cs "Não informado"
  | some l =>
    if pyLower l = cs "não informado" ∨ pyLower l = cs "nao informado" then
      cs "Não informado"
    else if hasChar '/' l then pyStrip ((splitOnChar '/' l).getLastD [])
    else if hasChar ',' l then pyStrip ((splitOnChar ',' l).getLastD [])
    else l

/-- The text after the last occurrence of `sep` (the whole text when `sep`
is absent), stated independently of `splitOnChar`. -/
def afterLast (sep : Char) (l : Str) : Str :=
  (l.reverse.takeWhile fun c => !(c == sep)).reverse

theorem hasChar_cons (sep c : Char) (rest : Str) :
    hasChar sep (c :: rest) = ((c == sep) || hasChar sep rest) := by
  simp [hasChar]

theorem splitOnChar_ne_nil (sep : Char) (l : Str) : splitOnChar sep l ≠ [] := by
  cases l with
  | nil => simp [splitOnChar]
  | cons c rest =>
    simp only [splitOnChar]
    split
    · simp
    · split <;> simp

theorem splitOnChar_no_sep (sep : Char) (l : Str) (h : hasChar sep l = false) :
    splitOnChar sep l = [l] := by
  induction l with
  | nil => rfl
  | cons c rest ih =>
    rw [hasChar_cons, Bool.or_eq_false_iff] at h
    obtain ⟨h1, h2⟩ := h
    have hcs : ¬ c = sep := by simpa using h1
    simp only [splitOnChar, if_neg hcs]
    rw [ih h2]

theorem splitOnChar_len_two (sep : Char) (l : Str) (h : hasChar sep l = true) :
    2 ≤ (splitOnChar sep l).length := by
  induction l with
  | nil => simp [hasChar] at h
  | cons c rest ih =>
    rw [hasChar_cons, Bool.or_eq_true] at h
    simp only [splitOnChar]
    by_cases hc : c = sep
    · rw [if_pos hc]
      cases hr : splitOnChar sep rest with
      | nil => exact absurd hr (splitOnChar_ne_nil sep rest)
      | cons a t => simp
    · rw [if_neg hc]
      have hrest : hasChar sep rest = true := by
        rcases h with h | h
        · exact absurd (by simpa using h) hc
        · exact h
      have h2 := ih hrest
      cases hr : splitOnChar sep rest with
      | nil => exact absurd hr (splitOnChar_ne_nil sep rest)
      | cons a t =>
        rw [hr] at h2
        simp only [List.length_cons] at h2 ⊢
        omega

theorem takeWhile_append_false {p : Char → Bool} (xs : Str) (a : Char)
    (ha : p a = false) : (xs ++ [a]).takeWhile p = xs.takeWhile p := by
  induction xs with
  | nil => simp [List.takeWhile, ha]
  | cons x xs ih =>
    simp only [List.cons_append, List.takeWhile]
    cases p x <;> simp [ih]

theorem takeWhile_append_stop {p : Char → Bool} (xs ys : Str)
    (h : xs.any (fun x => !(p x)) = true) :
    (xs ++ ys).takeWhile p = xs.takeWhile p := by
  induction xs with
  | nil => simp at h
  | cons x xs ih =>
    simp only [List.any_cons, Bool.or_eq_true] at h
    simp only [List.cons_append, List.takeWhile]
    rcases h with h | h
    · have : p x = false := by cases hpx : p x <;> simp [hpx] at h ⊢
      simp [this]
    · cases hpx : p x <;> simp [ih h]

theorem takeWhile_all {p : Char → Bool} (xs : Str)
    (h : ∀ x ∈ xs, p x = true) : xs.takeWhile p = xs := by
  induction xs with
  | nil => rfl
  | cons x xs ih =>
    simp only [List.takeWhile, h x (by simp)]
    rw [ih fun y hy => h y (by simp [hy])]

theorem hasChar_reverse_any (sep : Char) (l : Str) (h : hasChar sep l = true) :
    l.reverse.any (fun c => !(!(c == sep))) = true := by
  rw [List.any_reverse]
  simpa [hasChar] using h

/-- The last field of `splitOnChar` is the text after the last separator. -/
theorem splitOnChar_getLastD (sep : Char) (l : Str) :
    (splitOnChar sep l).getLastD [] = afterLast sep l := by
  induction l with
  | nil => rfl
  | cons c rest ih =>
    simp only [splitOnChar]
    by_cases hc : c = sep
    · rw [if_pos hc]
      have hne := splitOnChar_ne_nil sep rest
      have hstep : (([] : Str) :: splitOnChar sep rest).getLastD [] =
          (splitOnChar sep rest).getLastD [] := by
        cases hr : splitOnChar sep rest with
        | nil => exact absurd hr hne
        | cons a t => rw [List.getLastD_cons, List.getLastD_cons]
      rw [hstep, ih]
      have hfalse : (fun x => !(x == sep)) c = false := by simp [hc]
      simp only [afterLast, List.reverse_cons]
      rw [takeWhile_append_false _ _ hfalse]
    · rw [if_neg hc]
      by_cases hsep : hasChar sep rest = true
      · have h2 := splitOnChar_len_two sep rest hsep
        cases hr : splitOnChar sep rest with
        | nil => exact absurd hr (splitOnChar_ne_nil sep rest)
        | cons a t =>
          rw [hr] at h2
          have ht : t ≠ [] := by
            cases t with
            | nil => simp at h2
            | cons u v => simp
          have hlast : ((c :: a) :: t).getLastD ([] : Str) = (a :: t).getLastD [] := by
            cases t with
            | nil => exact absurd rfl ht
            | cons u v => simp only [List.getLastD_cons]
          rw [hlast, ← hr, ih]
          simp only [afterLast, List.reverse_cons]
          rw [takeWhile_append_stop _ _ (hasChar_reverse_any sep rest hsep)]
      · have hns : hasChar sep rest = false := by
          cases hx : hasChar sep rest
          · rfl
          · exact absurd hx hsep
        rw [splitOnChar_no_sep sep rest hns]
        simp only [List.getLastD_cons, List.getLastD_nil]
        have hall : ∀ x ∈ rest.reverse ++ [c], (fun x => !(x == sep)) x = true := by
          intro x hx
          rcases List.mem_append.mp hx with hx | hx
          · have hxr : x ∈ rest := List.mem_reverse.mp hx
            cases hxx : (x == sep) with
            | false => simp [hxx]
            | true =>
              exfalso
              have hcontra : hasChar sep rest = true := by
                rw [hasChar]
                exact List.any_eq_true.mpr ⟨x, hxr, hxx⟩
              rw [hcontra] at hns
              exact absurd hns (by simp)
          · simp only [List.mem_singleton] at hx
            subst hx
            simp only [Bool.not_eq_true']
            simpa using hc
        simp only [afterLast, List.reverse_cons]
        rw [takeWhile_all _ hall]
        simp

/-- C10: for every birthday string whose normalization (lowercase, `ã`/`õ`
replaced by `a`/`o`) contains the substring `informado`, `extrair_mes`
returns `none`, regardless of any parseable day/month component: sentinel
detection is substring containment, not equality with the sentinel phrases. -/
theorem extrair_mes_sentinel_containment (s : Str)
    (h : hasSubstr (cs "informado") (normAniv s) = true) :
    extrair_mes s = none := by
  unfold extrair_mes
  rw [if_pos h]

/-- Witness for C10 at the input `1/5/informado`, which even carries a
month component that would parse to 5. -/
theorem extrair_mes_sentinel_containment_witness :
    hasSubstr (cs "informado") (normAniv (cs "1/5/informado")) = true ∧
    extrair_mes (cs "1/5/informado") = none :=
  ⟨by decide, extrair_mes_sentinel_containment (cs "1/5/informado") (by decide)⟩

/-- C6 counterexample: the claim says the month is returned whenever the
string splits on `/` with a second part parsing to `m ∈ [1,12]` and the
string is not one of the two sentinel phrases (case- and accent-insensitive).
The input `1/5/informado` satisfies all of that — it parses to month 5 and
differs from both sentinel phrases — yet `extrair_mes` returns `none`,
because the code tests substring containment of `informado`, not equality. -/
theorem extrair_mes_claim_counterexample :
    extrair_mes (cs "1/5/informado") = none ∧
    2 ≤ (splitOnChar '/' (cs "1/5/informado")).length ∧
    pyInt ((splitOnChar '/' (cs "1/5/informado")).getD 1 []) = some 5 ∧
    (1 : Int) ≤ 5 ∧ (5 : Int) ≤ 12 ∧
    normAniv (cs "1/5/informado") ≠ cs "nao informado" ∧
    normAniv (cs "1/5/informado") ≠ cs "não informado" ∧
    pyLower (cs "1/5/informado") ≠ cs "nao informado" ∧
    pyLower (cs "1/5/informado") ≠ cs "não informado" := by
  refine ⟨by decide, by decide, by decide, by decide, by decide, ?_, ?_, ?_, ?_⟩ <;> decide

/-- C6 (amended): `extrair_mes` never raises (it is total, returning
`Option`); it returns `some m` if and only if the normalized string does
NOT contain the substring `informado` (the code's sentinel test), the
string splits on `/` into at least two parts, and the second part parses as
an integer `m` with `1 ≤ m ≤ 12`; in particular
`extrair_mes "15/03/1990" = some 3` and
`extrair_mes "Não informado" = none`. -/
theorem extrair_mes_spec :
    (∀ (s : Str) (m : Int), extrair_mes s = some m ↔
      (hasSubstr (cs "informado") (normAniv s) = false ∧
       2 ≤ (splitOnChar '/' s).length ∧
       pyInt ((splitOnChar '/' s).getD 1 []) = some m ∧
       1 ≤ m ∧ m ≤ 12)) ∧
    extrair_mes (cs "15/03/1990") = some 3 ∧
    extrair_mes (cs "Não informado") = none := by
  refine ⟨?_, by decide, by decide⟩
  intro s m
  unfold extrair_mes
  cases hsub : hasSubstr (cs "informado") (normAniv s) with
  | true => simp [hsub]
  | false =>
    simp only [Bool.false_eq_true, if_false]
    by_cases hlen : 2 ≤ (splitOnChar '/' s).length
    · rw [if_pos hlen]
      cases hint : pyInt ((splitOnChar '/' s).getD 1 []) with
      | none => simp [hint]
      | some mes =>
        show (if 1 ≤ mes ∧ mes ≤ 12 then some mes else none) = some m ↔ _
        by_cases hr : 1 ≤ mes ∧ mes ≤ 12
        · rw [if_pos hr]
          constructor
          · intro h
            obtain rfl : mes = m := by simpa using h
            exact ⟨trivial, hlen, rfl, hr.1, hr.2⟩
          · rintro ⟨-, -, hpi, -, -⟩
            exact hpi
        · rw [if_neg hr]
          constructor
          · intro h
            exact absurd h (by simp)
          · rintro ⟨-, -, hpi, h1, h2⟩
            obtain rfl : mes = m := by simpa using hpi
            exact absurd ⟨h1, h2⟩ hr
    · rw [if_neg hlen]
      constructor
      · intro h
        exact absurd h (by simp)
      · rintro ⟨-, hl, -, -⟩
        exact absurd hl hlen

/-- Witness for the amended C6: the iff instantiated at `15/03/1990`. -/
theorem extrair_mes_spec_witness :
    extrair_mes (cs "15/03/1990") = some 3 :=
  (extrair_mes_spec.1 (cs "15/03/1990") 3).mpr (by decide)

/-- C7 counterexample: on input `" Lisboa "` (no slash, no comma, not a
sentinel) the code returns the text unchanged, NOT trimmed, contrary to the
claim that the final branch returns the trimmed original text. -/
theorem extrair_estado_claim_counterexample :
    extrair_estado (some (cs " Lisboa ")) = cs " Lisboa " ∧
    pyStrip (cs " Lisboa ") ≠ cs " Lisboa " := by
  constructor <;> decide

/-- C7 (amended): `extrair_estado` returns the sentinel for missing input
and for input equal (case-insensitively) to a sentinel phrase; otherwise,
when the string contains `/` it returns the trimmed text after the last
`/`; else when it contains `,` the trimmed text after the last `,`; else
the ORIGINAL text unchanged (not trimmed).  The claim's examples hold:
`extrair_estado "São Paulo/SP" = "SP"` and
`extrair_estado "Lisbon, Portugal" = "Portugal"`. -/
theorem extrair_estado_spec :
    (extrair_estado none = cs "Não informado") ∧
    (∀ l : Str, (pyLower l = cs "não informado" ∨ pyLower l = cs "nao informado") →
      extrair_estado (some l) = cs "Não informado") ∧
    (∀ l : Str, ¬ (pyLower l = cs "não informado" ∨ pyLower l = cs "nao informado") →
      hasChar '/' l = true →
      extrair_estado (some l) = pyStrip (afterLast '/' l)) ∧
    (∀ l : Str, ¬ (pyLower l = cs "não informado" ∨ pyLower l = cs "nao informado") →
      hasChar '/' l = false → hasChar ',' l = true →
      extrair_estado (some l) = pyStrip (afterLast ',' l)) ∧
    (∀ l : Str, ¬ (pyLower l = cs "não informado" ∨ pyLower l = cs "nao informado") →
      hasChar '/' l = false → hasChar ',' l = false →
      extrair_estado (some l) = l) ∧
    extrair_estado (some (cs "São Paulo/SP")) = cs "SP" ∧
    extrair_estado (some (cs "Lisbon, Portugal")) = cs "Portugal" ∧
    extrair_estado (some (cs "Não informado")) = cs "Não informado" := by
  refine ⟨rfl, ?_, ?_, ?_, ?_, by decide, by decide, by decide⟩
  · intro l hl
    simp only [extrair_estado, if_pos hl]
  · intro l hl hs
    simp only [extrair_estado, if_neg hl, hs, if_true]
    rw [splitOnChar_getLastD]
  · intro l hl hs hcm
    simp only [extrair_estado, if_neg hl, hs, hcm, Bool.false_eq_true, if_false, if_true]
    rw [splitOnChar_getLastD]
  · intro l hl hs hcm
    simp only [extrair_estado, if_neg hl, hs, hcm, Bool.false_eq_true, if_false]

/-- Witness for the amended C7: the slash branch at `São Paulo/SP`. -/
theorem extrair_estado_spec_witness :
    extrair_estado (some (cs "São Paulo/SP")) = pyStrip (afterLast '/' (cs "São Paulo/SP")) :=
  extrair_estado_spec.2.2.1 (cs "São Paulo/SP") (by decide) (by decide)

theorem toNat_ofNat_small (n : Nat) (h : n < 55296) : (Char.ofNat n).toNat = n := by
  have hv : Nat.isValidChar n := Or.inl h
  simp [Char.ofNat, Char.ofNatAux, Char.toNat, dif_pos hv, UInt32.toNat, BitVec.toNat_ofNatLt]

theorem charEq_of_toNat (c d : Char) (h : c.toNat = d.toNat) : c = d :=
  Char.ext (UInt32.ext h)

theorem isPySpace_iff (c : Char) : isPySpace c = true ↔
    (c.toNat = 32 ∨ c.toNat = 9 ∨ c.toNat = 10 ∨ c.toNat = 11 ∨
     c.toNat = 12 ∨ c.toNat = 13) := by
  simp [isPySpace, Bool.or_eq_true, or_assoc]

theorem isPySpace_false_of (c : Char)
    (h : ¬(c.toNat = 32 ∨ c.toNat = 9 ∨ c.toNat = 10 ∨ c.toNat = 11 ∨
       c.toNat = 12 ∨ c.toNat = 13)) : isPySpace c = false := by
  cases hx : isPySpace c
  · rfl
  · exact absurd ((isPySpace_iff c).mp hx) h

theorem lowerChar_idem (c : Char) : lowerChar (lowerChar c) = lowerChar c := by
  unfold lowerChar
  by_cases h1 : 65 ≤ c.toNat ∧ c.toNat ≤ 90
  · rw [if_pos h1]
    have ht := toNat_ofNat_small (c.toNat + 32) (by omega)
    rw [if_neg (by rw [ht]; omega), if_neg (by rw [ht]; omega)]
  · rw [if_neg h1]
    by_cases h2 : 192 ≤ c.toNat ∧ c.toNat ≤ 222 ∧ c.toNat ≠ 215
    · rw [if_pos h2]
      have ht := toNat_ofNat_small (c.toNat + 32) (by omega)
      rw [if_neg (by rw [ht]; omega), if_neg (by rw [ht]; omega)]
    · rw [if_neg h2, if_neg h1, if_neg h2]

theorem isPySpace_lowerChar (c : Char) : isPySpace (lowerChar c) = isPySpace c := by
  unfold lowerChar
  by_cases h1 : 65 ≤ c.toNat ∧ c.toNat ≤ 90
  · rw [if_pos h1]
    have ht := toNat_ofNat_small (c.toNat + 32) (by omega)
    rw [isPySpace_false_of _ (by rw [ht]; omega), isPySpace_false_of _ (by omega)]
  · rw [if_neg h1]
    by_cases h2 : 192 ≤ c.toNat ∧ c.toNat ≤ 222 ∧ c.toNat ≠ 215
    · rw [if_pos h2]
      have ht := toNat_ofNat_small (c.toNat + 32) (by omega)
      rw [isPySpace_false_of _ (by rw [ht]; omega), isPySpace_false_of _ (by omega)]
    · rw [if_neg h2]

theorem pyLower_idem (s : Str) : pyLower (pyLower s) = pyLower s := by
  unfold pyLower
  rw [List.map_map]
  induction s with
  | nil => rfl
  | cons c rest ih =>
    simp only [List.map_cons, Function.comp_apply]
    rw [lowerChar_idem c, ih]

theorem pyLower_eq_nil (s : Str) (h : pyLower s = []) : s = [] :=
  List.map_eq_nil_iff.mp h

theorem dropWhile_head_shape (p : Char → Bool) (l : Str) :
    l.dropWhile p = [] ∨ ∃ y ys, l.dropWhile p = y :: ys ∧ p y = false := by
  induction l with
  | nil => left; rfl
  | cons x xs ih =>
    cases hx : p x
    · right; exact ⟨x, xs, by simp [List.dropWhile, hx], hx⟩
    · simpa [List.dropWhile, hx] using ih

theorem dropWhile_eq_self_of_shape (p : Char → Bool) (l : Str)
    (h : l = [] ∨ ∃ y ys, l = y :: ys ∧ p y = false) : l.dropWhile p = l := by
  rcases h with rfl | ⟨y, ys, rfl, hy⟩
  · rfl
  · simp [List.dropWhile, hy]

theorem suffix_getLast? {u v : Str} (h : u <:+ v) (hne : u ≠ []) :
    u.getLast? = v.getLast? := by
  obtain ⟨w, rfl⟩ := h
  rw [List.getLast?_append]
  cases hu : u.getLast? with
  | none => exact absurd (List.getLast?_eq_none_iff.mp hu) hne
  | some y => simp

/-- Idempotence of the embedded `str.strip()`. -/
theorem pyStrip_idem (s : Str) : pyStrip (pyStrip s) = pyStrip s := by
  unfold pyStrip
  rcases dropWhile_head_shape isPySpace (s.dropWhile isPySpace).reverse with hB | ⟨y, ys, hB, hy⟩
  · rw [hB]
    simp
  · have hBne : (s.dropWhile isPySpace).reverse.dropWhile isPySpace ≠ [] := by
      rw [hB]; simp
    have hAne : s.dropWhile isPySpace ≠ [] := by
      intro hA
      apply hBne
      rw [hA]
      rfl
    rcases dropWhile_head_shape isPySpace s with hA | ⟨z, zs, hA, hz⟩
    · exact absurd hA hAne
    · have hlastB : ((s.dropWhile isPySpace).reverse.dropWhile isPySpace).getLast? =
          some z := by
        rw [suffix_getLast? (List.dropWhile_suffix _) hBne, List.getLast?_reverse, hA]
        rfl
      have hheadBrev : ((s.dropWhile isPySpace).reverse.dropWhile isPySpace).reverse.head? =
          some z := by rw [List.head?_reverse]; exact hlastB
      have step1 : ((s.dropWhile isPySpace).reverse.dropWhile isPySpace).reverse.dropWhile isPySpace =
          ((s.dropWhile isPySpace).reverse.dropWhile isPySpace).reverse := by
        apply dropWhile_eq_self_of_shape
        cases hrev : ((s.dropWhile isPySpace).reverse.dropWhile isPySpace).reverse with
        | nil => left; rfl
        | cons a b =>
          right
          rw [hrev] at hheadBrev
          simp only [List.head?_cons, Option.some.injEq] at hheadBrev
          exact ⟨a, b, rfl, by rw [hheadBrev]; exact hz⟩
      rw [step1, List.reverse_reverse]
      have step2 : ((s.dropWhile isPySpace).reverse.dropWhile isPySpace).dropWhile isPySpace =
          (s.dropWhile isPySpace).reverse.dropWhile isPySpace := by
        apply dropWhile_eq_self_of_shape
        right
        exact ⟨y, ys, hB, hy⟩
      rw [step2]

/-- The embedded `str.strip()` commutes with the embedded `str.lower()`. -/
theorem pyStrip_pyLower (s : Str) : pyStrip (pyLower s) = pyLower (pyStrip s) := by
  unfold pyStrip pyLower
  have hws : (isPySpace ∘ lowerChar) = isPySpace := funext isPySpace_lowerChar
  rw [List.dropWhile_map, hws, ← List.map_reverse, List.dropWhile_map, hws,
    ← List.map_reverse]

/-- Tag normalization `tag.lower().strip()` from the source. -/
def tagify (s : Str) : Str := pyStrip (pyLower s)

theorem tagify_eq (s : Str) : tagify s = pyLower (pyStrip s) := pyStrip_pyLower s

theorem pyLower_tagify (s : Str) : pyLower (tagify s) = tagify s := by
  rw [tagify_eq, pyLower_idem, ← tagify_eq]

theorem pyStrip_tagify (s : Str) : pyStrip (tagify s) = tagify s := pyStrip_idem _

theorem tagify_ne_nil (s : Str) (h : ¬ pyStrip s = []) : ¬ tagify s = [] := by
  rw [tagify_eq]
  intro hc
  exact h (pyLower_eq_nil _ hc)

/-- A Python value inside a list-valued profile field: a string, or some
non-string value (number, null, nested structure) whose content the claims
do not depend on. -/
inductive PyItem where
  | istr (s : Str)
  | iother
  deriving DecidableEq, Repr

/-- A Python value stored in a profile field: a string, a list, or some
other shape; the source checks exactly these three cases via isinstance. -/
inductive PyVal where
  | vstr (s : Str)
  | vlist (xs : List PyItem)
  | vother
  deriving DecidableEq, Repr

/-- A profile is a Python dict: an association list from field name to
value; `List.lookup` is Python dictionary access. -/
abbrev Profile := List (Str × PyVal)

/-- The list branch of `obter_interesses`/`obter_areas`: keep string
entries whose strip is nonempty, each lowercased and stripped. -/
def tagsOfList (xs : List PyItem) : List Str :=
  xs.filterMap fun it =>
    match it with
    | .istr s => if pyStrip s = [] then none else some (tagify s)
    | .iother => none

/-- The string branch of `obter_interesses`/`obter_areas`: split on `#`,
drop entries whose strip is empty, lowercase and strip the rest. -/
def tagsOfStr (s : Str) : List Str :=
  (splitOnChar '#' s).filterMap fun t =>
    if pyStrip t = [] then none else some (tagify t)

/-- Embedding of `obter_interesses` (source lines 77-85); the Bool records
whether the unexpected-shape diagnostic (`st.warning`) was emitted.  A
missing field defaults to the empty list. -/
def obter_interesses (p : Profile) : List Str × Bool :=
  match (List.lookup (cs "interesses") p).getD (.vlist []) with
  | .vlist xs => (tagsOfList xs, false)
  | .vstr s => (tagsOfStr s, false)
  | .vother => ([], true)

/-- Embedding of `obter_areas` (source lines 87-95): identical to
`obter_interesses` except the missing-field default is the empty string. -/
def obter_areas (p : Profile) : List Str × Bool :=
  match (List.lookup (cs "área") p).getD (.vstr []) with
  | .vlist xs => (tagsOfList xs, false)
  | .vstr s => (tagsOfStr s, false)
  | .vother => ([], true)

/-- The string entries of a Python list value, in order. -/
def strEntries (xs : List PyItem) : List Str :=
  xs.filterMap fun it =>
    match it with
    | .istr s => some s
    | .iother => none

theorem tagsOfList_eq (xs : List PyItem) :
    tagsOfList xs = ((strEntries xs).filter fun s => !(pyStrip s).isEmpty).map tagify := by
  induction xs with
  | nil => rfl
  | cons it rest ih =>
    cases it with
    | iother => simpa [tagsOfList, strEntries] using ih
    | istr s =>
      by_cases hs : pyStrip s = []
      · simpa [tagsOfList, strEntries, List.filter, hs] using ih
      · have : ((pyStrip s).isEmpty = false) := by
          cases hx : pyStrip s
          · exact absurd hx hs
          · rfl
        simpa [tagsOfList, strEntries, List.filter, hs, this] using ih

theorem tagsOfStr_eq (s : Str) :
    tagsOfStr s = ((splitOnChar '#' s).filter fun t => !(pyStrip t).isEmpty).map tagify := by
  unfold tagsOfStr
  induction splitOnChar '#' s with
  | nil => rfl
  | cons t rest ih =>
    by_cases hs : pyStrip t = []
    · simpa [List.filter, hs] using ih
    · have : ((pyStrip t).isEmpty = false) := by
        cases hx : pyStrip t
        · exact absurd hx hs
        · rfl
      simpa [List.filter, hs, this] using ih

theorem mem_tagsOfList_wf (xs : List PyItem) (t : Str) (h : t ∈ tagsOfList xs) :
    t ≠ [] ∧ pyLower t = t ∧ pyStrip t = t := by
  unfold tagsOfList at h
  obtain ⟨it, -, hit⟩ := List.mem_filterMap.mp h
  cases it with
  | iother => simp at hit
  | istr s =>
    have hit2 : (if pyStrip s = [] then none else some (tagify s)) = some t := hit
    by_cases hs : pyStrip s = []
    · rw [if_pos hs] at hit2
      exact absurd hit2 (by simp)
    · rw [if_neg hs] at hit2
      obtain rfl : tagify s = t := by simpa using hit2
      exact ⟨tagify_ne_nil s hs, pyLower_tagify s, pyStrip_tagify s⟩

theorem mem_tagsOfStr_wf (s : Str) (t : Str) (h : t ∈ tagsOfStr s) :
    t ≠ [] ∧ pyLower t = t ∧ pyStrip t = t := by
  unfold tagsOfStr at h
  obtain ⟨u, -, hu⟩ := List.mem_filterMap.mp h
  by_cases hs : pyStrip u = []
  · simp [hs] at hu
  · rw [if_neg hs] at hu
    obtain rfl : tagify u = t := by simpa using hu
    exact ⟨tagify_ne_nil u hs, pyLower_tagify u, pyStrip_tagify u⟩

/-- C8: every extracted tag (for both `área` and `interesses`) is a
nonempty, lowercased, trimmed string; a list input keeps its string entries
(dropping non-strings and entries that are blank after stripping), a string
input is split on `#` (dropping blanks), any other shape yields the
diagnostic and the empty list; and the concrete examples of the claim
hold: `extract_tags "Tech#AI#Data" = ["tech","ai","data"]` and
`extract_tags ["  Tech ", " "] = ["tech"]`. -/
theorem obter_tags_spec :
    (∀ (p : Profile) (t : Str), t ∈ (obter_interesses p).1 →
        t ≠ [] ∧ pyLower t = t ∧ pyStrip t = t) ∧
    (∀ (p : Profile) (t : Str), t ∈ (obter_areas p).1 →
        t ≠ [] ∧ pyLower t = t ∧ pyStrip t = t) ∧
    (∀ xs : List PyItem,
        tagsOfList xs = ((strEntries xs).filter fun s => !(pyStrip s).isEmpty).map tagify) ∧
    (∀ s : Str,
        tagsOfStr s = ((splitOnChar '#' s).filter fun t => !(pyStrip t).isEmpty).map tagify) ∧
    (∀ p : Profile, List.lookup (cs "interesses") p = some .vother →
        obter_interesses p = ([], true)) ∧
    (∀ p : Profile, List.lookup (cs "área") p = some .vother →
        obter_areas p = ([], true)) ∧
    tagsOfStr (cs "Tech#AI#Data") = [cs "tech", cs "ai", cs "data"] ∧
    tagsOfList [.istr (cs "  Tech "), .istr (cs " ")] = [cs "tech"] ∧
    obter_interesses [(cs "interesses", .vstr (cs "Tech#AI#Data"))] =
      ([cs "tech", cs "ai", cs "data"], false) ∧
    obter_interesses [(cs "interesses", .vlist [.istr (cs "  Tech "), .istr (cs " ")])] =
      ([cs "tech"], false) := by
  refine ⟨?_, ?_, tagsOfList_eq, tagsOfStr_eq, ?_, ?_,
    by decide, by decide, by decide, by decide⟩
  · intro p t ht
    unfold obter_interesses at ht
    cases hv : (List.lookup (cs "interesses") p).getD (.vlist []) with
    | vlist xs =>
      rw [hv] at ht
      exact mem_tagsOfList_wf xs t ht
    | vstr s =>
      rw [hv] at ht
      exact mem_tagsOfStr_wf s t ht
    | vother =>
      rw [hv] at ht
      exact absurd ht (by simp)
  · intro p t ht
    unfold obter_areas at ht
    cases hv : (List.lookup (cs "área") p).getD (.vstr []) with
    | vlist xs =>
      rw [hv] at ht
      exact mem_tagsOfList_wf xs t ht
    | vstr s =>
      rw [hv] at ht
      exact mem_tagsOfStr_wf s t ht
    | vother =>
      rw [hv] at ht
      exact absurd ht (by simp)
  · intro p hp
    unfold obter_interesses
    rw [hp]
    rfl
  · intro p hp
    unfold obter_areas
    rw [hp]
    rfl

/-- Witness for C8: the well-formedness clause applied to the tag `tech`
produced from a concrete profile. -/
theorem obter_tags_spec_witness :
    cs "tech" ≠ [] ∧ pyLower (cs "tech") = cs "tech" ∧ pyStrip (cs "tech") = cs "tech" :=
  obter_tags_spec.1 [(cs "interesses", PyVal.vstr (cs "Tech#AI#Data"))] (cs "tech") (by decide)

/-- Python nonempty set intersection between two tag lists. -/
def interAny (xs ys : List Str) : Bool := xs.any fun x => ys.any fun y => y == x

/-- The displayed name of a profile: `p.get('nome', 'Sem Nome')`. -/
def nomeD (p : Profile) : PyVal := (List.lookup (cs "nome") p).getD (.vstr (cs "Sem Nome"))

/-- Inner loop of the complementary-pairs search (source lines 482-487):
scan the candidates after the current profile, append a pair whenever the
interest sets intersect, and break as soon as `limit` pairs are collected. -/
def paresInner (limit : Nat) (np : PyVal) (ip : List Str) :
    List Profile → List (PyVal × PyVal) → List (PyVal × PyVal)
  | [], acc => acc
  | q :: qs, acc =>
    if interAny ip (obter_interesses q).1 then
      if limit ≤ (acc ++ [(np, nomeD q)]).length then acc ++ [(np, nomeD q)]
      else paresInner limit np ip qs (acc ++ [(np, nomeD q)])
    else paresInner limit np ip qs acc

/-- Outer loop of the complementary-pairs search (source lines 480-489). -/
def paresGo (limit : Nat) : List Profile → List (PyVal × PyVal) → List (PyVal × PyVal)
  | [], acc => acc
  | p :: rest, acc =>
    if limit ≤ (paresInner limit (nomeD p) (obter_interesses p).1 rest acc).length then
      paresInner limit (nomeD p) (obter_interesses p).1 rest acc
    else paresGo limit rest (paresInner limit (nomeD p) (obter_interesses p).1 rest acc)

/-- Embedding of the complementary-pairs search (source lines 479-489).
The source hardcodes `limit = 3`; it is kept as a parameter here. -/
def pares (limit : Nat) (ps : List Profile) : List (PyVal × PyVal) := paresGo limit ps []

/-- All intersecting pairs in enumeration order (first profile index
ascending, second index ascending within it), with no limit. -/
def allPairsSpec : List Profile → List (PyVal × PyVal)
  | [] => []
  | p :: rest =>
    ((rest.filter fun q => interAny (obter_interesses p).1 (obter_interesses q).1).map
      fun q => (nomeD p, nomeD q)) ++ allPairsSpec rest

theorem paresInner_eq (limit : Nat) (np : PyVal) (ip : List Str) :
    ∀ (qs : List Profile) (acc : List (PyVal × PyVal)), acc.length < limit →
      paresInner limit np ip qs acc =
        acc ++ (((qs.filter fun q => interAny ip (obter_interesses q).1).map
          fun q => (np, nomeD q)).take (limit - acc.length)) := by
  intro qs
  induction qs with
  | nil =>
    intro acc h
    simp [paresInner]
  | cons q qs ih =>
    intro acc h
    by_cases hq : interAny ip (obter_interesses q).1 = true
    · have hfilter : (List.filter (fun r => interAny ip (obter_interesses r).1) (q :: qs)) =
          q :: List.filter (fun r => interAny ip (obter_interesses r).1) qs := by
        simp [List.filter_cons, hq]
      simp only [paresInner, hq, if_true]
      rw [hfilter, List.map_cons]
      by_cases hstop : limit ≤ (acc ++ [(np, nomeD q)]).length
      · rw [if_pos hstop]
        have hstop2 : limit ≤ acc.length + 1 := by simpa using hstop
        have hl : limit - acc.length = 0 + 1 := by omega
        rw [hl, List.take_succ_cons, List.take_zero]
      · rw [if_neg hstop]
        have hstop2 : ¬ limit ≤ acc.length + 1 := by
          intro hx
          exact hstop (by simpa using hx)
        have hlt : (acc ++ [(np, nomeD q)]).length < limit := by
          simp only [List.length_append, List.length_cons, List.length_nil]
          omega
        rw [ih (acc ++ [(np, nomeD q)]) hlt]
        have hlen2 : (acc ++ [(np, nomeD q)]).length = acc.length + 1 := by simp
        rw [hlen2]
        have hsucc : limit - acc.length = (limit - (acc.length + 1)) + 1 := by omega
        rw [hsucc, List.take_succ_cons]
        simp [List.append_assoc]
    · have hq2 : interAny ip (obter_interesses q).1 = false := by
        cases hx : interAny ip (obter_interesses q).1
        · rfl
        · exact absurd hx hq
      have hfilter : (List.filter (fun r => interAny ip (obter_interesses r).1) (q :: qs)) =
          List.filter (fun r => interAny ip (obter_interesses r).1) qs := by
        simp [List.filter_cons, hq2]
      simp only [paresInner, hq2, Bool.false_eq_true, if_false]
      rw [hfilter]
      exact ih acc h

theorem paresGo_eq (limit : Nat) :
    ∀ (ps : List Profile) (acc : List (PyVal × PyVal)), acc.length < limit →
      paresGo limit ps acc = acc ++ ((allPairsSpec ps).take (limit - acc.length)) := by
  intro ps
  induction ps with
  | nil =>
    intro acc h
    simp [paresGo, allPairsSpec]
  | cons p rest ih =>
    intro acc h
    simp only [paresGo, allPairsSpec]
    rw [paresInner_eq limit (nomeD p) (obter_interesses p).1 rest acc h]
    by_cases hstop : limit ≤ (acc ++ (((rest.filter fun q =>
        interAny (obter_interesses p).1 (obter_interesses q).1).map
          fun q => (nomeD p, nomeD q)).take (limit - acc.length))).length
    · rw [if_pos hstop]
      simp only [List.length_append, List.length_take] at hstop
      have hP : limit - acc.length ≤ ((rest.filter fun q =>
          interAny (obter_interesses p).1 (obter_interesses q).1).map
            fun q => (nomeD p, nomeD q)).length := by omega
      rw [List.take_append_eq_append_take]
      have hz : limit - acc.length - ((rest.filter fun q =>
          interAny (obter_interesses p).1 (obter_interesses q).1).map
            fun q => (nomeD p, nomeD q)).length = 0 := by omega
      rw [hz]
      simp
    · rw [if_neg hstop]
      simp only [List.length_append, List.length_take] at hstop
      have hPlt : ((rest.filter fun q =>
          interAny (obter_interesses p).1 (obter_interesses q).1).map
            fun q => (nomeD p, nomeD q)).length < limit - acc.length := by omega
      have htake : (((rest.filter fun q =>
          interAny (obter_interesses p).1 (obter_interesses q).1).map
            fun q => (nomeD p, nomeD q)).take (limit - acc.length)) =
          ((rest.filter fun q =>
            interAny (obter_interesses p).1 (obter_interesses q).1).map
              fun q => (nomeD p, nomeD q)) :=
        List.take_of_length_le (by omega)
      rw [htake]
      have hlen : (acc ++ ((rest.filter fun q =>
          interAny (obter_interesses p).1 (obter_interesses q).1).map
            fun q => (nomeD p, nomeD q))).length < limit := by
        simp only [List.length_append]
        omega
      rw [ih _ hlen]
      rw [List.take_append_eq_append_take, htake]
      simp only [List.length_append, List.append_assoc]
      have : limit - (acc.length + ((rest.filter fun q =>
          interAny (obter_interesses p).1 (obter_interesses q).1).map
            fun q => (nomeD p, nomeD q)).length) =
          limit - acc.length - ((rest.filter fun q =>
            interAny (obter_interesses p).1 (obter_interesses q).1).map
              fun q => (nomeD p, nomeD q)).length := by omega
      rw [this]

/-- Concrete profile A of the claim example, interests x and y. -/
def profA : Profile :=
  [(cs "nome", .vstr (cs "A")),
   (cs "interesses", .vlist [.istr (cs "x"), .istr (cs "y")])]

/-- Concrete profile B of the claim example, interest y. -/
def profB : Profile :=
  [(cs "nome", .vstr (cs "B")), (cs "interesses", .vlist [.istr (cs "y")])]

/-- Concrete profile C of the claim example, no interests. -/
def profC : Profile :=
  [(cs "nome", .vstr (cs "C")), (cs "interesses", .vlist [])]

/-- C9: for every profile list and positive limit, the pair search returns
exactly the first `limit` pairs, in enumeration order (first index
ascending, second ascending within), whose interest sets intersect,
stopping as soon as `limit` pairs are found; and on the claim's example
A:{x,y}, B:{y}, C:{} with limit 3 the result is exactly [(A,B)]. -/
theorem pares_spec :
    (∀ (ps : List Profile) (limit : Nat), 1 ≤ limit →
      pares limit ps = (allPairsSpec ps).take limit) ∧
    pares 3 [profA, profB, profC] = [(.vstr (cs "A"), .vstr (cs "B"))] := by
  constructor
  · intro ps limit h
    unfold pares
    rw [paresGo_eq limit ps [] (by simpa using h)]
    simp
  · decide

/-- Witness for C9: the general clause applied to the concrete example. -/
theorem pares_spec_witness :
    1 ≤ 3 ∧ pares 3 [profA, profB, profC] = (allPairsSpec [profA, profB, profC]).take 3 :=
  ⟨by decide, pares_spec.1 [profA, profB, profC] 3 (by decide)⟩

/-- Lexicographic (code point) order on strings: Python string comparison,
as used by `sorted`. -/
def lexLeB : Str → Str → Bool
  | [], _ => true
  | _ :: _, [] => false
  | a :: as, b :: bs =>
    if a.toNat < b.toNat then true
    else if b.toNat < a.toNat then false
    else lexLeB as bs

theorem lexLeB_total (a b : Str) : lexLeB a b = true ∨ lexLeB b a = true := by
  induction a generalizing b with
  | nil => left; rfl
  | cons x xs ih =>
    cases b with
    | nil => right; rfl
    | cons y ys =>
      simp only [lexLeB]
      rcases Nat.lt_trichotomy x.toNat y.toNat with h | h | h
      · left; simp [h]
      · rcases ih ys with h2 | h2 <;> [left; right] <;> simp [h, h2]
      · right; simp [h, Nat.lt_asymm h]

theorem lexLeB_cons_iff (x y : Char) (xs ys : Str) :
    lexLeB (x :: xs) (y :: ys) = true ↔
      (x.toNat < y.toNat ∨ (x.toNat = y.toNat ∧ lexLeB xs ys = true)) := by
  simp only [lexLeB]
  split_ifs with g1 g2
  · simp [g1]
  · constructor
    · intro h
      exact absurd h (by simp)
    · rintro (h | ⟨h, -⟩) <;> omega
  · have heq : x.toNat = y.toNat := by omega
    constructor
    · intro h
      exact Or.inr ⟨heq, h⟩
    · rintro (h | ⟨-, h⟩)
      · omega
      · exact h

theorem lexLeB_trans : ∀ (a b c : Str), lexLeB a b = true → lexLeB b c = true →
    lexLeB a c = true := by
  intro a
  induction a with
  | nil => intro b c h1 h2; rfl
  | cons x xs ih =>
    intro b c h1 h2
    cases b with
    | nil => exact absurd h1 (by simp [lexLeB])
    | cons y ys =>
      cases c with
      | nil => exact absurd h2 (by simp [lexLeB])
      | cons z zs =>
        rw [lexLeB_cons_iff] at h1 h2 ⊢
        rcases h1 with h1 | ⟨e1, h1⟩ <;> rcases h2 with h2 | ⟨e2, h2⟩
        · left; omega
        · left; omega
        · left; omega
        · right; exact ⟨by omega, ih ys zs h1 h2⟩

theorem lexLeB_antisymm : ∀ (a b : Str), lexLeB a b = true → lexLeB b a = true →
    a = b := by
  intro a
  induction a with
  | nil =>
    intro b h1 h2
    cases b with
    | nil => rfl
    | cons y ys => exact absurd h2 (by simp [lexLeB])
  | cons x xs ih =>
    intro b h1 h2
    cases b with
    | nil => exact absurd h1 (by simp [lexLeB])
    | cons y ys =>
      rw [lexLeB_cons_iff] at h1 h2
      rcases h1 with h1 | ⟨e1, h1⟩ <;> rcases h2 with h2 | ⟨e2, h2⟩
      · exfalso; omega
      · exfalso; omega
      · exfalso; omega
      · have hxy : x = y := charEq_of_toNat x y e1
        subst hxy
        rw [ih ys h1 h2]

instance sortRelTotal : IsTotal Str fun a b => lexLeB a b = true := ⟨lexLeB_total⟩

instance sortRelTrans : IsTrans Str fun a b => lexLeB a b = true := ⟨lexLeB_trans⟩

instance sortRelAntisymm : IsAntisymm Str fun a b => lexLeB a b = true := ⟨lexLeB_antisymm⟩

/-- Embedding of Python `sorted` on a list of strings. -/
def sortStrs (l : List Str) : List Str :=
  List.insertionSort (fun a b => lexLeB a b = true) l

/-- Python dict indexing `p["local"]`: KeyError is `Except.error`. -/
def getLocalRaw (p : Profile) : Except Unit PyVal :=
  match List.lookup (cs "local") p with
  | some v => .ok v
  | none => .error ()

/-- The comprehension `{p["local"] for p in perfis ...}` indexes `local` on
every profile (it raises on the first profile missing the field, even ones
the filter would discard); the values are collected left to right.  A
non-string value would make the later `sorted` comparison raise, modelled
as the same error. -/
def localStrs : List Profile → Except Unit (List Str)
  | [] => .ok []
  | p :: ps =>
    match getLocalRaw p with
    | .error e => .error e
    | .ok (.vstr s) =>
      match localStrs ps with
      | .error e => .error e
      | .ok rest => .ok (s :: rest)
    | .ok _ => .error ()

/-- Embedding of the sidebar option derivation (source line 196):
`["Todos"] + sorted({p["local"] for p in perfis if p["local"] != "Não informado"})`. -/
def localOptions (ps : List Profile) : Except Unit (List Str) :=
  match localStrs ps with
  | .error e => .error e
  | .ok ls =>
    .ok (cs "Todos" :: sortStrs ((ls.filter fun s => !(s == cs "Não informado")).dedup))

/-- Embedding of the region filter (source lines 200-203): keep `p` when
the selection is `Todos` (short-circuit: the field is not read) or when
`p["local"]` equals the selection; a missing `local` raises on a specific
selection. -/
def dadosFiltrados (sel : Str) : List Profile → Except Unit (List Profile)
  | [] => .ok []
  | p :: ps =>
    if sel = cs "Todos" then
      match dadosFiltrados sel ps with
      | .error e => .error e
      | .ok rest => .ok (p :: rest)
    else
      match getLocalRaw p with
      | .error e => .error e
      | .ok v =>
        match dadosFiltrados sel ps with
        | .error e => .error e
        | .ok rest =>
          .ok (if (match v with | .vstr s => s == sel | _ => false) then p :: rest else rest)

/-- C4 counterexample: a profile without a `local` field makes both the
option derivation and a specific-selection filter raise (KeyError), rather
than being treated as the sentinel value. -/
theorem filtro_local_claim_counterexample :
    localOptions [[(cs "nome", PyVal.vstr (cs "Ana"))]] = .error () ∧
    dadosFiltrados (cs "Lisboa") [[(cs "nome", PyVal.vstr (cs "Ana"))]] = .error () := by
  constructor <;> rfl

theorem localStrs_ok (ps : List Profile)
    (h : ∀ p ∈ ps, ∃ s, List.lookup (cs "local") p = some (.vstr s)) :
    ∃ ls, localStrs ps = .ok ls ∧
      (∀ x : Str, x ∈ ls ↔ ∃ p ∈ ps, List.lookup (cs "local") p = some (.vstr x)) := by
  induction ps with
  | nil =>
    refine ⟨[], rfl, fun x => ?_⟩
    constructor
    · intro hx
      exact absurd hx (List.not_mem_nil x)
    · rintro ⟨p, hp, -⟩
      exact absurd hp (List.not_mem_nil p)
  | cons p ps ih =>
    obtain ⟨s, hs⟩ := h p (by simp)
    obtain ⟨ls, hls, hiff⟩ := ih fun q hq => h q (by simp [hq])
    refine ⟨s :: ls, ?_, ?_⟩
    · simp only [localStrs, getLocalRaw, hs, hls]
    · intro x
      simp only [List.mem_cons]
      constructor
      · rintro (rfl | hx)
        · exact ⟨p, by simp, hs⟩
        · obtain ⟨q, hq, hq2⟩ := (hiff x).mp hx
          exact ⟨q, by simp [hq], hq2⟩
      · rintro ⟨q, hq, hq2⟩
        rcases hq with rfl | hq
        · left
          rw [hs] at hq2
          simpa using hq2.symm
        · right
          exact (hiff x).mpr ⟨q, hq, hq2⟩

/-- C4 (amended): selecting `Todos` passes every profile through with no
field access (so it never raises, even on a profile missing `local`); and
when every profile carries a string `local` field, the option derivation
never raises and yields `Todos` followed by the distinct `local` values
excluding the sentinel `Não informado`, sorted, while a specific selection
keeps exactly the profiles whose `local` is string-equal to it.  (A profile
missing `local` makes option derivation and specific-selection filtering
raise, per the counterexample.) -/
theorem filtro_local_spec :
    (∀ ps : List Profile, dadosFiltrados (cs "Todos") ps = .ok ps) ∧
    (∀ ps : List Profile,
      (∀ p ∈ ps, ∃ s, List.lookup (cs "local") p = some (.vstr s)) →
      ((∃ opts, localOptions ps = .ok opts ∧
        opts.head? = some (cs "Todos") ∧
        List.Sorted (fun a b => lexLeB a b = true) opts.tail ∧
        opts.tail.Nodup ∧
        (∀ x : Str, x ∈ opts.tail ↔ (x ≠ cs "Não informado" ∧
          ∃ p ∈ ps, List.lookup (cs "local") p = some (.vstr x)))) ∧
       (∀ sel : Str, sel ≠ cs "Todos" →
        dadosFiltrados sel ps = .ok (ps.filter fun p =>
          decide (List.lookup (cs "local") p = some (.vstr sel)))))) := by
  constructor
  · intro ps
    induction ps with
    | nil => rfl
    | cons p ps ih =>
      simp [dadosFiltrados, ih]
  · intro ps h
    constructor
    · obtain ⟨ls, hls, hiff⟩ := localStrs_ok ps h
      refine ⟨cs "Todos" :: sortStrs ((ls.filter fun s => !(s == cs "Não informado")).dedup),
        ?_, rfl, ?_, ?_, ?_⟩
      · simp only [localOptions, hls]
      · exact List.sorted_insertionSort _ _
      · have hperm := List.perm_insertionSort (fun a b => lexLeB a b = true)
          ((ls.filter fun s => !(s == cs "Não informado")).dedup)
        exact hperm.symm.nodup (List.nodup_dedup _)
      · intro x
        have hperm := List.perm_insertionSort (fun a b => lexLeB a b = true)
          ((ls.filter fun s => !(s == cs "Não informado")).dedup)
        simp only [List.tail_cons, sortStrs]
        rw [hperm.mem_iff, List.mem_dedup, List.mem_filter]
        constructor
        · rintro ⟨hx, hne⟩
          refine ⟨?_, (hiff x).mp hx⟩
          intro hcontra
          rw [hcontra] at hne
          simp at hne
        · rintro ⟨hne, hx⟩
          refine ⟨(hiff x).mpr hx, ?_⟩
          simpa using hne
    · intro sel hsel
      induction ps with
      | nil => rfl
      | cons p ps ih =>
        obtain ⟨s, hs⟩ := h p (by simp)
        have ihr := ih fun q hq => h q (by simp [hq])
        simp only [dadosFiltrados, if_neg hsel, getLocalRaw, hs, ihr]
        by_cases heq : s = sel
        · subst heq
          simp [List.filter_cons, hs]
        · have hbeq : (s == sel) = false := by simpa using heq
          have hdec : decide (List.lookup (cs "local") p = some (.vstr sel)) = false := by
            rw [hs]
            simp [heq]
          simp [List.filter_cons, hbeq, hdec]

/-- Witness for the amended C4: the specific-selection clause of
`filtro_local_spec` applied to a concrete one-profile collection. -/
theorem filtro_local_spec_witness :
    dadosFiltrados (cs "Lisboa") [[(cs "local", PyVal.vstr (cs "Lisboa"))]] =
      .ok ([[(cs "local", PyVal.vstr (cs "Lisboa"))]].filter fun p =>
        decide (List.lookup (cs "local") p = some (.vstr (cs "Lisboa")))) :=
  ((filtro_local_spec.2 [[(cs "local", PyVal.vstr (cs "Lisboa"))]]
      (by
        intro p hp
        simp only [List.mem_singleton] at hp
        subst hp
        exact ⟨cs "Lisboa", rfl⟩)).2 (cs "Lisboa") (by decide))

def hexDig (n : Nat) : Char := if n < 10 then Char.ofNat (48 + n) else Char.ofNat (87 + n)

def hex4 (n : Nat) : Str :=
  [hexDig (n / 4096 % 16), hexDig (n / 256 % 16), hexDig (n / 16 % 16), hexDig (n % 16)]

def escChar (c : Char) : Str :=
  if c.toNat = 34 then ['\\', '"']
  else if c.toNat = 92 then ['\\', '\\']
  else if c.toNat = 8 then ['\\', 'b']
  else if c.toNat = 9 then ['\\', 't']
  else if c.toNat = 10 then ['\\', 'n']
  else if c.toNat = 12 then ['\\', 'f']
  else if c.toNat = 13 then ['\\', 'r']
  else if c.toNat < 32 then '\\' :: 'u' :: hex4 c.toNat
  else if c.toNat < 127 then [c]
  else if c.toNat < 65536 then '\\' :: 'u' :: hex4 c.toNat
  else '\\' :: 'u' :: hex4 (55296 + (c.toNat - 65536) / 1024) ++
       '\\' :: 'u' :: hex4 (56320 + (c.toNat - 65536) % 1024)

def unhex (c : Char) : Option Nat :=
  if 48 ≤ c.toNat ∧ c.toNat ≤ 57 then some (c.toNat - 48)
  else if 97 ≤ c.toNat ∧ c.toNat ≤ 102 then some (c.toNat - 87)
  else none

def unhex4 : Str → Option (Nat × Str)
  | a :: b :: c :: d :: r =>
    match unhex a, unhex b, unhex c, unhex d with
    | some w, some x, some y, some z => some (w * 4096 + x * 256 + y * 16 + z, r)
    | _, _, _, _ => none
  | _ => none

def consFst (c : Char) : Str × Str → Str × Str := fun p => (c :: p.1, p.2)

def scanStr : Nat → Str → Option (Str × Str)
  | 0, _ => none
  | _ + 1, [] => none
  | fuel + 1, ch :: rest =>
    if ch = '"' then some ([], rest)
    else if ch = '\\' then
      match rest with
      | [] => none
      | e :: rest2 =>
        if e = '"' then consFst '"' <$> scanStr fuel rest2
        else if e = '\\' then consFst '\\' <$> scanStr fuel rest2
        else if e = 'b' then consFst (Char.ofNat 8) <$> scanStr fuel rest2
        else if e = 't' then consFst '\t' <$> scanStr fuel rest2
        else if e = 'n' then consFst '\n' <$> scanStr fuel rest2
        else if e = 'f' then consFst (Char.ofNat 12) <$> scanStr fuel rest2
        else if e = 'r' then consFst (Char.ofNat 13) <$> scanStr fuel rest2
        else if e = 'u' then
          match unhex4 rest2 with
          | none => none
          | some (n, rest3) =>
            if 55296 ≤ n ∧ n < 56320 then
              match rest3 with
              | '\\' :: 'u' :: r4 =>
                match unhex4 r4 with
                | some (m, rest5) =>
                  if 56320 ≤ m ∧ m < 57344 then
                    consFst (Char.ofNat ((n - 55296) * 1024 + (m - 56320) + 65536)) <$>
                      scanStr fuel rest5
                  else none
                | none => none
              | _ => none
            else if 56320 ≤ n ∧ n < 57344 then none
            else consFst (Char.ofNat n) <$> scanStr fuel rest3
        else none
    else consFst ch <$> scanStr fuel rest

theorem unhex_hexDig (d : Nat) (h : d < 16) : unhex (hexDig d) = some d := by
  interval_cases d <;> rfl

theorem unhex4_hex4 (n : Nat) (h : n < 65536) (r : Str) :
    unhex4 (hex4 n ++ r) = some (n, r) := by
  have h1 := unhex_hexDig (n / 4096 % 16) (by omega)
  have h2 := unhex_hexDig (n / 256 % 16) (by omega)
  have h3 := unhex_hexDig (n / 16 % 16) (by omega)
  have h4 := unhex_hexDig (n % 16) (by omega)
  simp only [hex4, List.cons_append, List.nil_append, unhex4, h1, h2, h3, h4]
  simp only [Option.some.injEq, Prod.mk.injEq]
  exact ⟨by omega, trivial⟩

def escape : Str → Str
  | [] => []
  | c :: s => escChar c ++ escape s

theorem char_valid_bounds (c : Char) :
    c.toNat < 55296 ∨ (57343 < c.toNat ∧ c.toNat < 1114112) := by
  have h := c.valid
  rcases h with h | ⟨h1, h2⟩
  · left
    exact h
  · right
    exact ⟨h1, h2⟩

theorem scanStr_u (fuel : Nat) (tail : Str) :
    scanStr (fuel + 1) ('\\' :: 'u' :: tail) =
      (match unhex4 tail with
       | none => none
       | some (n, rest3) =>
         if 55296 ≤ n ∧ n < 56320 then
           match rest3 with
           | '\\' :: 'u' :: r4 =>
             match unhex4 r4 with
             | some (m, rest5) =>
               if 56320 ≤ m ∧ m < 57344 then
                 consFst (Char.ofNat ((n - 55296) * 1024 + (m - 56320) + 65536)) <$>
                   scanStr fuel rest5
               else none
             | none => none
           | _ => none
         else if 56320 ≤ n ∧ n < 57344 then none
         else consFst (Char.ofNat n) <$> scanStr fuel rest3) := by
  rfl

theorem scanStr_escChar (c : Char) (fuel : Nat) (r : Str) :
    scanStr (fuel + 1) (escChar c ++ r) = consFst c <$> scanStr fuel r := by
  have hval := char_valid_bounds c
  by_cases h34 : c.toNat = 34
  · obtain rfl := charEq_of_toNat c '"' (by rw [h34]; rfl)
    simp [escChar, scanStr]
  by_cases h92 : c.toNat = 92
  · obtain rfl := charEq_of_toNat c '\\' (by rw [h92]; rfl)
    simp [escChar, scanStr]
  by_cases h8 : c.toNat = 8
  · obtain rfl := charEq_of_toNat c (Char.ofNat 8) (by rw [h8]; rfl)
    simp [escChar, scanStr]
  by_cases h9 : c.toNat = 9
  · obtain rfl := charEq_of_toNat c '\t' (by rw [h9]; rfl)
    simp [escChar, scanStr]
  by_cases h10 : c.toNat = 10
  · obtain rfl := charEq_of_toNat c '\n' (by rw [h10]; rfl)
    simp [escChar, scanStr]
  by_cases h12 : c.toNat = 12
  · obtain rfl := charEq_of_toNat c (Char.ofNat 12) (by rw [h12]; rfl)
    simp [escChar, scanStr]
  by_cases h13 : c.toNat = 13
  · obtain rfl := charEq_of_toNat c (Char.ofNat 13) (by rw [h13]; rfl)
    simp [escChar, scanStr]
  by_cases hlt32 : c.toNat < 32
  · have hesc : escChar c = '\\' :: 'u' :: hex4 c.toNat := by
      unfold escChar
      rw [if_neg h34, if_neg h92, if_neg h8, if_neg h9, if_neg h10, if_neg h12, if_neg h13,
        if_pos hlt32]
    rw [hesc]
    have hq : ¬ ('u' : Char) = '"' := by decide
    simp only [List.cons_append]
    simp [scanStr, unhex4_hex4 c.toNat (by omega) r]
    rw [if_neg (by omega), if_neg (by omega)]
  by_cases hlt127 : c.toNat < 127
  · have hesc : escChar c = [c] := by
      unfold escChar
      rw [if_neg h34, if_neg h92, if_neg h8, if_neg h9, if_neg h10, if_neg h12, if_neg h13,
        if_neg hlt32, if_pos hlt127]
    rw [hesc]
    have hq : ¬ c = '"' := fun hc => h34 (by rw [hc]; rfl)
    have hb : ¬ c = '\\' := fun hc => h92 (by rw [hc]; rfl)
    simp [scanStr, hq, hb]
  by_cases hbmp : c.toNat < 65536
  · have hesc : escChar c = '\\' :: 'u' :: hex4 c.toNat := by
      unfold escChar
      rw [if_neg h34, if_neg h92, if_neg h8, if_neg h9, if_neg h10, if_neg h12, if_neg h13,
        if_neg hlt32, if_neg hlt127, if_pos hbmp]
    rw [hesc]
    simp only [List.cons_append]
    simp [scanStr, unhex4_hex4 c.toNat (by omega) r]
    rw [if_neg (by omega), if_neg (by omega)]
  · have hesc : escChar c = '\\' :: 'u' :: hex4 (55296 + (c.toNat - 65536) / 1024) ++
        '\\' :: 'u' :: hex4 (56320 + (c.toNat - 65536) % 1024) := by
      unfold escChar
      rw [if_neg h34, if_neg h92, if_neg h8, if_neg h9, if_neg h10, if_neg h12, if_neg h13,
        if_neg hlt32, if_neg hlt127, if_neg hbmp]
    rw [hesc]
    have hdiv : (c.toNat - 65536) / 1024 < 1024 := by omega
    have hmod : (c.toNat - 65536) % 1024 < 1024 := Nat.mod_lt _ (by omega)
    simp only [List.cons_append, List.append_assoc]
    rw [scanStr_u, unhex4_hex4 (55296 + (c.toNat - 65536) / 1024) (by omega)]
    simp only [List.cons_append]
    rw [if_pos (by constructor <;> omega)]
    rw [unhex4_hex4 (56320 + (c.toNat - 65536) % 1024) (by omega)]
    show (if 56320 ≤ 56320 + (c.toNat - 65536) % 1024 ∧ 56320 + (c.toNat - 65536) % 1024 < 57344 then
        consFst (Char.ofNat ((55296 + (c.toNat - 65536) / 1024 - 55296) * 1024 +
          (56320 + (c.toNat - 65536) % 1024 - 56320) + 65536)) <$> scanStr fuel r
      else none) = consFst c <$> scanStr fuel r
    rw [if_pos (by constructor <;> omega)]
    have harith : (55296 + (c.toNat - 65536) / 1024 - 55296) * 1024 +
        (56320 + (c.toNat - 65536) % 1024 - 56320) + 65536 = c.toNat := by omega
    rw [harith, Char.ofNat_toNat]

theorem scanStr_escape (s : Str) : ∀ (fuel : Nat) (r : Str), s.length < fuel →
    scanStr fuel (escape s ++ '"' :: r) = some (s, r) := by
  induction s with
  | nil =>
    intro fuel r h
    cases fuel with
    | zero => omega
    | succ f => simp [escape, scanStr]
  | cons c s ih =>
    intro fuel r h
    cases fuel with
    | zero => omega
    | succ f =>
      have hstep : escape (c :: s) ++ '"' :: r = escChar c ++ (escape s ++ '"' :: r) := by
        simp [escape]
      rw [hstep, scanStr_escChar, ih f r (by simpa using Nat.lt_of_succ_lt_succ h)]
      rfl

def parseElems : Nat → Str → Option (List Str × Str)
  | 0, _ => none
  | _ + 1, ']' :: r => some ([], r)
  | fuel + 1, '"' :: r =>
    match scanStr (fuel + 1) r with
    | none => none
    | some (s, r1) =>
      match r1 with
      | ']' :: r2 => some ([s], r2)
      | ',' :: ' ' :: r2 => (fun p => (s :: p.1, p.2)) <$> parseElems fuel r2
      | _ => none
  | _ + 1, _ => none

def parseVal (fuel : Nat) : Str → Option (PyVal × Str)
  | '"' :: r => (fun p => (PyVal.vstr p.1, p.2)) <$> scanStr fuel r
  | '[' :: r => (fun p => (PyVal.vlist (p.1.map PyItem.istr), p.2)) <$> parseElems fuel r
  | _ => none

def parseEntries : Nat → Str → Option (Profile × Str)
  | 0, _ => none
  | _ + 1, '}' :: r => some ([], r)
  | fuel + 1, '"' :: r =>
    match scanStr (fuel + 1) r with
    | none => none
    | some (k, r1) =>
      match r1 with
      | ':' :: ' ' :: r2 =>
        match parseVal (fuel + 1) r2 with
        | none => none
        | some (v, r3) =>
          match r3 with
          | '}' :: r4 => some ([(k, v)], r4)
          | ',' :: ' ' :: r4 => (fun p => ((k, v) :: p.1, p.2)) <$> parseEntries fuel r4
          | _ => none
      | _ => none
  | _ + 1, _ => none

def parseObj (fuel : Nat) : Str → Option (Profile × Str)
  | '{' :: r => parseEntries fuel r
  | _ => none

def dq (s : Str) : Str := '"' :: (escape s ++ ['"'])

def sepJoin : List Str → Str
  | [] => []
  | [x] => x
  | x :: xs => x ++ ',' :: ' ' :: sepJoin xs

def dumpItem : PyItem → Str
  | .istr s => dq s
  | .iother => [ 'n', 'u', 'l', 'l' ]

def dumpVal : PyVal → Str
  | .vstr s => dq s
  | .vlist xs => '[' :: (sepJoin (xs.map dumpItem) ++ [']'])
  | .vother => [ 'n', 'u', 'l', 'l' ]

def dumpEntry (kv : Str × PyVal) : Str := dq kv.1 ++ ':' :: ' ' :: dumpVal kv.2

def dumps (p : Profile) : Str := '{' :: (sepJoin (p.map dumpEntry) ++ ['}'])

def wfItem : PyItem → Bool
  | .istr _ => true
  | .iother => false

def wfVal : PyVal → Bool
  | .vstr _ => true
  | .vlist xs => xs.all wfItem
  | .vother => false

def wfProfile (p : Profile) : Bool := p.all fun kv => wfVal kv.2

def strEntries2 : List PyItem → List Str
  | [] => []
  | .istr s :: xs => s :: strEntries2 xs
  | .iother :: xs => strEntries2 xs

theorem wf_list_shape (xs : List PyItem) (h : xs.all wfItem = true) :
    xs = (strEntries2 xs).map PyItem.istr := by
  induction xs with
  | nil => rfl
  | cons it xs ih =>
    simp only [List.all_cons, Bool.and_eq_true] at h
    cases it with
    | istr s =>
      show PyItem.istr s :: xs = (s :: strEntries2 xs).map PyItem.istr
      rw [List.map_cons, ← ih h.2]
    | iother => simp [wfItem] at h

def costElems (ss : List Str) : Nat := ss.foldr (fun s a => s.length + 1 + a) 1

def costVal : PyVal → Nat
  | .vstr s => s.length + 1
  | .vlist xs => costElems (strEntries2 xs) + 1
  | .vother => 1

def costEntries (p : Profile) : Nat :=
  p.foldr (fun kv a => kv.1.length + 1 + costVal kv.2 + a) 1

theorem costElems_pos (ss : List Str) : 0 < costElems ss := by
  induction ss with
  | nil => simp [costElems]
  | cons s ss ih =>
    have hc : costElems (s :: ss) = s.length + 1 + costElems ss := rfl
    omega

theorem parseElems_round (ss : List Str) : ∀ (fuel : Nat) (r : Str),
    costElems ss < fuel →
    parseElems fuel (sepJoin (ss.map dq) ++ ']' :: r) = some (ss, r) := by
  induction ss with
  | nil =>
    intro fuel r h
    cases fuel with
    | zero => exact absurd h (Nat.not_lt_zero _)
    | succ f =>
      show parseElems (f + 1) (']' :: r) = some ([], r)
      rfl
  | cons s ss ih =>
    intro fuel r h
    cases fuel with
    | zero => exact absurd h (Nat.not_lt_zero _)
    | succ f =>
      cases ss with
      | nil =>
        have hc : costElems [s] = s.length + 2 := rfl
        have hlen : s.length < f + 1 := by omega
        simp only [List.map_cons, List.map_nil, sepJoin]
        have hshape : dq s ++ ']' :: r = '"' :: (escape s ++ '"' :: (']' :: r)) := by
          simp [dq]
        rw [hshape]
        simp only [parseElems]
        rw [scanStr_escape s (f + 1) (']' :: r) hlen]
        rfl
      | cons s2 ss2 =>
        have hc : costElems (s :: s2 :: ss2) = s.length + 1 + costElems (s2 :: ss2) := rfl
        have hpos := costElems_pos (s2 :: ss2)
        have hlen : s.length < f + 1 := by omega
        have hrest : costElems (s2 :: ss2) < f := by omega
        have hshape : sepJoin ((s :: s2 :: ss2).map dq) ++ ']' :: r =
            '"' :: (escape s ++ '"' ::
              (',' :: ' ' :: (sepJoin ((s2 :: ss2).map dq) ++ ']' :: r))) := by
          simp [sepJoin, dq, List.append_assoc]
        rw [hshape]
        simp only [parseElems]
        rw [scanStr_escape s (f + 1) _ hlen]
        show (fun p => (s :: p.1, p.2)) <$>
            parseElems f (sepJoin ((s2 :: ss2).map dq) ++ ']' :: r) =
          some (s :: s2 :: ss2, r)
        rw [ih f r hrest]
        rfl

theorem costVal_pos (v : PyVal) : 0 < costVal v := by
  cases v with
  | vstr s => simp [costVal]
  | vlist xs => simp [costVal]
  | vother => simp [costVal]

theorem parseVal_round (v : PyVal) (hwf : wfVal v = true) :
    ∀ (fuel : Nat) (r : Str), costVal v < fuel →
    parseVal fuel (dumpVal v ++ r) = some (v, r) := by
  cases v with
  | vstr s =>
    intro fuel r h
    have hshape : dumpVal (.vstr s) ++ r = '"' :: (escape s ++ '"' :: r) := by
      simp [dumpVal, dq]
    rw [hshape]
    simp only [parseVal]
    have hlen : s.length < fuel := by
      have : costVal (PyVal.vstr s) = s.length + 1 := rfl
      omega
    rw [scanStr_escape s fuel r hlen]
    rfl
  | vlist xs =>
    intro fuel r h
    have hxs : xs = (strEntries2 xs).map PyItem.istr :=
      wf_list_shape xs (by simpa [wfVal] using hwf)
    have hmap : xs.map dumpItem = (strEntries2 xs).map dq := by
      conv_lhs => rw [hxs]
      rw [List.map_map]
      rfl
    have hshape : dumpVal (.vlist xs) ++ r =
        '[' :: (sepJoin ((strEntries2 xs).map dq) ++ ']' :: r) := by
      simp [dumpVal, hmap, List.append_assoc]
    rw [hshape]
    simp only [parseVal]
    have hcost : costElems (strEntries2 xs) < fuel := by
      have : costVal (PyVal.vlist xs) = costElems (strEntries2 xs) + 1 := rfl
      omega
    rw [parseElems_round (strEntries2 xs) fuel r hcost]
    show some (PyVal.vlist ((strEntries2 xs).map PyItem.istr), r) = some (PyVal.vlist xs, r)
    rw [← hxs]
  | vother =>
    intro fuel r h
    simp [wfVal] at hwf

theorem parseEntries_round (p : Profile) (hwf : wfProfile p = true) :
    ∀ (fuel : Nat) (r : Str), costEntries p < fuel →
    parseEntries fuel (sepJoin (p.map dumpEntry) ++ '}' :: r) = some (p, r) := by
  induction p with
  | nil =>
    intro fuel r h
    cases fuel with
    | zero => exact absurd h (Nat.not_lt_zero _)
    | succ f =>
      show parseEntries (f + 1) ('}' :: r) = some ([], r)
      rfl
  | cons kv p ih =>
    obtain ⟨k, v⟩ := kv
    intro fuel r h
    have hwf2 : wfVal v = true ∧ wfProfile p = true := by
      have h1 : ((k, v) :: p).all (fun kv => wfVal kv.2) = true := hwf
      rw [List.all_cons, Bool.and_eq_true] at h1
      exact h1
    cases fuel with
    | zero => exact absurd h (Nat.not_lt_zero _)
    | succ f =>
      have hc : costEntries ((k, v) :: p) = k.length + 1 + costVal v + costEntries p := rfl
      have hvpos := costVal_pos v
      cases p with
      | nil =>
        have hcnil : costEntries ([] : Profile) = 1 := rfl
        have hklen : k.length < f + 1 := by omega
        have hvcost : costVal v < f + 1 := by omega
        simp only [List.map_cons, List.map_nil, sepJoin]
        have hshape : dumpEntry (k, v) ++ '}' :: r =
            '"' :: (escape k ++ '"' :: (':' :: ' ' :: (dumpVal v ++ '}' :: r))) := by
          simp [dumpEntry, dq, List.append_assoc]
        rw [hshape]
        simp only [parseEntries]
        rw [scanStr_escape k (f + 1) _ hklen]
        simp only []
        rw [parseVal_round v hwf2.1 (f + 1) ('}' :: r) hvcost]
        rfl
      | cons kv2 p2 =>
        have hpos := costVal_pos kv2.2
        have hc2 : costEntries (kv2 :: p2) =
            kv2.1.length + 1 + costVal kv2.2 + costEntries p2 := rfl
        have hklen : k.length < f + 1 := by omega
        have hvcost : costVal v < f + 1 := by omega
        have hrest : costEntries (kv2 :: p2) < f := by omega
        have hshape : sepJoin (((k, v) :: kv2 :: p2).map dumpEntry) ++ '}' :: r =
            '"' :: (escape k ++ '"' :: (':' :: ' ' :: (dumpVal v ++
              (',' :: ' ' :: (sepJoin ((kv2 :: p2).map dumpEntry) ++ '}' :: r))))) := by
          simp [sepJoin, dumpEntry, dq, List.append_assoc]
        rw [hshape]
        simp only [parseEntries]
        rw [scanStr_escape k (f + 1) _ hklen]
        simp only []
        rw [parseVal_round v hwf2.1 (f + 1) _ hvcost]
        have hih := ih hwf2.2 f r hrest
        exact (by rw [hih]; rfl :
          (fun p3 => ((k, v) :: p3.1, p3.2)) <$>
            parseEntries f (sepJoin ((kv2 :: p2).map dumpEntry) ++ '}' :: r) =
          some ((k, v) :: kv2 :: p2, r))

theorem parseObj_round (p : Profile) (hwf : wfProfile p = true) (fuel : Nat) (r : Str)
    (h : costEntries p < fuel) :
    parseObj fuel (dumps p ++ r) = some (p, r) := by
  have hshape : dumps p ++ r = '{' :: (sepJoin (p.map dumpEntry) ++ '}' :: r) := by
    simp [dumps, List.append_assoc]
  rw [hshape]
  simp only [parseObj]
  exact parseEntries_round p hwf fuel r h

theorem dumps_inj (p q : Profile) (hp : wfProfile p = true) (hq : wfProfile q = true)
    (h : dumps p = dumps q) : p = q := by
  have h1 := parseObj_round p hp (costEntries p + costEntries q + 1) [] (by omega)
  have h2 := parseObj_round q hq (costEntries p + costEntries q + 1) [] (by omega)
  rw [h] at h1
  rw [h1] at h2
  simpa using h2

/-- Keys sorted (Python `sorted` over the embedded code point order on
strings), as `json.dumps(..., sort_keys=True)` serializes a dict. -/
def canonKeys (p : Profile) : Profile :=
  List.insertionSort (fun a b => lexLeB a.1 b.1 = true) p

/-- The canonical serialization whose md5 is the fingerprint at source line
122: `json.dumps(perfil, sort_keys=True)`.  Equal inputs give equal md5
digests; distinct inputs give distinct digests except for md5 collisions,
which is the claim's "overwhelming probability" caveat. -/
def fpInput (p : Profile) : Str := dumps (canonKeys p)

instance entryRelTotal : IsTotal (Str × PyVal) fun a b => lexLeB a.1 b.1 = true :=
  ⟨fun a b => lexLeB_total a.1 b.1⟩

instance entryRelTrans : IsTrans (Str × PyVal) fun a b => lexLeB a.1 b.1 = true :=
  ⟨fun a b c => lexLeB_trans a.1 b.1 c.1⟩

instance entryStrictAntisymm :
    IsAntisymm (Str × PyVal) fun a b => lexLeB a.1 b.1 = true ∧ a.1 ≠ b.1 :=
  ⟨fun a b h1 h2 => absurd (lexLeB_antisymm a.1 b.1 h1.1 h2.1) h1.2⟩

theorem canonKeys_perm (p : Profile) : (canonKeys p).Perm p :=
  List.perm_insertionSort _ _

theorem canonKeys_eq_of_perm (p q : Profile) (hperm : p.Perm q)
    (hnd : (p.map Prod.fst).Nodup) : canonKeys p = canonKeys q := by
  have hcp : (canonKeys p).Perm (canonKeys q) :=
    (canonKeys_perm p).trans (hperm.trans (canonKeys_perm q).symm)
  have hndq : (q.map Prod.fst).Nodup := (hperm.map Prod.fst).nodup hnd
  have hndp2 : ((canonKeys p).map Prod.fst).Nodup :=
    ((canonKeys_perm p).map Prod.fst).symm.nodup hnd
  have hndq2 : ((canonKeys q).map Prod.fst).Nodup :=
    ((canonKeys_perm q).map Prod.fst).symm.nodup hndq
  have hs1 : List.Pairwise (fun a b : Str × PyVal => lexLeB a.1 b.1 = true) (canonKeys p) :=
    List.sorted_insertionSort _ _
  have hs2 : List.Pairwise (fun a b : Str × PyVal => lexLeB a.1 b.1 = true) (canonKeys q) :=
    List.sorted_insertionSort _ _
  have hp1 : List.Pairwise (fun a b : Str × PyVal => a.1 ≠ b.1) (canonKeys p) :=
    List.pairwise_map.mp hndp2
  have hp2 : List.Pairwise (fun a b : Str × PyVal => a.1 ≠ b.1) (canonKeys q) :=
    List.pairwise_map.mp hndq2
  exact List.eq_of_perm_of_sorted hcp (hs1.and hp1) (hs2.and hp2)

theorem wfProfile_of_perm (p q : Profile) (h : p.Perm q) (hw : wfProfile p = true) :
    wfProfile q = true := by
  rw [wfProfile, List.all_eq_true] at hw ⊢
  intro kv hkv
  exact hw kv (h.mem_iff.mpr hkv)

/-- C5: the fingerprint input (the string actually hashed with md5 at
source line 122) is invariant under reordering a raw profile's fields, so
any digest of it — md5 included — is as well; and on well-formed profiles
(string or list-of-string values, per the data model) with distinct keys,
equal fingerprint inputs force the profiles to be permutations of each
other, i.e. any difference in field values changes the md5 input and hence
the digest except for md5 collisions ("overwhelming probability"). -/
theorem fingerprint_spec :
    (∀ (md5 : Str → Str) (p q : Profile), p.Perm q → (p.map Prod.fst).Nodup →
        md5 (fpInput p) = md5 (fpInput q)) ∧
    (∀ p q : Profile, wfProfile p = true → wfProfile q = true →
        (p.map Prod.fst).Nodup → (q.map Prod.fst).Nodup →
        fpInput p = fpInput q → p.Perm q) := by
  constructor
  · intro md5 p q hperm hnd
    rw [fpInput, fpInput, canonKeys_eq_of_perm p q hperm hnd]
  · intro p q hp hq hndp hndq h
    have hcanon : canonKeys p = canonKeys q :=
      dumps_inj _ _ (wfProfile_of_perm p _ (canonKeys_perm p).symm hp)
        (wfProfile_of_perm q _ (canonKeys_perm q).symm hq) h
    exact (canonKeys_perm p).symm.trans (by rw [hcanon]; exact canonKeys_perm q)

/-- Witness for C5: field reordering of a concrete two-field profile keeps
the fingerprint input, and the injectivity clause applied at a concrete
profile. -/
theorem fingerprint_spec_witness :
    (fun s : Str => s) (fpInput [(cs "a", PyVal.vstr (cs "x")), (cs "b", PyVal.vstr (cs "y"))]) =
      (fun s : Str => s) (fpInput [(cs "b", PyVal.vstr (cs "y")), (cs "a", PyVal.vstr (cs "x"))]) ∧
    List.Perm [(cs "a", PyVal.vstr (cs "x"))] [(cs "a", PyVal.vstr (cs "x"))] :=
  ⟨fingerprint_spec.1 (fun s => s) _ _ (List.Perm.swap _ _ _) (by decide),
   fingerprint_spec.2 _ _ (by decide) (by decide) (by decide) (by decide) rfl⟩

/-- The normalization cache keyed by fingerprint input (the md5 key is a
function of this string); prepend on write, first match on read. -/
abbrev Cache := List (Str × Profile)

/-- Cache read `perfil_hash in cache` / `cache[perfil_hash]`. -/
def cacheGet (c : Cache) (k : Str) : Option Profile := List.lookup k c

/-- Cache write `cache[perfil_hash] = perfil_normalizado`. -/
def cacheSet (c : Cache) (k : Str) (v : Profile) : Cache := (k, v) :: c

/-- The oracle response for one batch: invocation failure (network error,
non-2xx, timeout — `acessa_chatgpt` returns None), a response that fails
`json.loads`, or a parsed JSON array of records.  The oracle is modelled as
a function of the batch: one run's responses. -/
inductive OracleResp where
  | fail
  | notJson
  | ok (records : List Profile)

/-- Whether the response is an invocation failure or a parse failure. -/
def isFailResp : OracleResp → Bool
  | .fail => true
  | .notJson => true
  | .ok _ => false

/-- The shape check at source line 148:
`all(key in perfil_normalizado for key in ['nome','local','área','interesses'])`. -/
def validKeys (r : Profile) : Bool :=
  (List.lookup (cs "nome") r).isSome && (List.lookup (cs "local") r).isSome &&
  (List.lookup (cs "área") r).isSome && (List.lookup (cs "interesses") r).isSome

/-- Phase 1 of `normalizar_dados` (source lines 120-131): for each profile
in order, on cache hit append the stored record to the output, on miss
queue the profile and its fingerprint.  Returns (hits, queue, hashes).
The `except` branch around hashing is unreachable in the model (hashing is
total). -/
def phase1 (cache : Cache) : List Profile → List Profile × List Profile × List Str
  | [] => ([], [], [])
  | p :: ps =>
    let r := phase1 cache ps
    match cacheGet cache (fpInput p) with
    | some v => (v :: r.1, r.2.1, r.2.2)
    | none => (r.1, p :: r.2.1, fpInput p :: r.2.2)

/-- The per-record merge loop (source lines 147-153):
`for perfil_normalizado, perfil_hash in zip(perfis_batch_normalizados, hashes)`.
A record with the required keys is stored in the cache and appended; a
record without them appends `perfil` — the leaked phase-1 loop variable,
i.e. the LAST profile of the whole input (`lastP`) — and stores nothing.
`zip` truncates at the shorter list. -/
def processRecords (lastP : Profile) : Cache → List Profile → List Str →
    List Profile × Cache
  | cache, [], _ => ([], cache)
  | cache, _ :: _, [] => ([], cache)
  | cache, r :: rs, h :: hs =>
    if validKeys r then
      let rec2 := processRecords lastP (cacheSet cache h r) rs hs
      (r :: rec2.1, rec2.2)
    else
      let rec2 := processRecords lastP cache rs hs
      (lastP :: rec2.1, rec2.2)

/-- One batch (source lines 140-159): oracle failure or JSON decode error
fall back to the raw batch with no cache write; a parsed array is merged
record by record. -/
def processBatch (oracle : List Profile → OracleResp) (lastP : Profile)
    (cache : Cache) (batch : List Profile) (hs : List Str) : List Profile × Cache :=
  match oracle batch with
  | .fail => (batch, cache)
  | .notJson => (batch, cache)
  | .ok rs => processRecords lastP cache rs hs

/-- The batch loop (source lines 133-159), gas-driven for structural
recursion: gas is the queue length, and each step consumes a batch of 20.
Returns (batch outputs, final cache, batches sent to the oracle). -/
def runBatchesGo (oracle : List Profile → OracleResp) (lastP : Profile) :
    Nat → Cache → List Profile → List Str → List Profile × Cache × List (List Profile)
  | _, cache, [], _ => ([], cache, [])
  | 0, cache, _ :: _, _ => ([], cache, [])
  | gas + 1, cache, q :: qs, hs =>
    let pb := processBatch oracle lastP cache ((q :: qs).take 20) (hs.take 20)
    let rec2 := runBatchesGo oracle lastP gas pb.2 ((q :: qs).drop 20) (hs.drop 20)
    (pb.1 ++ rec2.1, rec2.2.1, (q :: qs).take 20 :: rec2.2.2)

/-- Embedding of `normalizar_dados` (source lines 97-161).  Returns
(output, final cache, oracle calls). -/
def normalizar_dados (oracle : List Profile → OracleResp) (cache : Cache)
    (perfis : List Profile) : List Profile × Cache × List (List Profile) :=
  let ph := phase1 cache perfis
  let lastP := perfis.getLastD []
  let rb := runBatchesGo oracle lastP ph.2.1.length cache ph.2.1 ph.2.2
  (ph.1 ++ rb.1, rb.2.1, rb.2.2)

/-- The successive (batch, hash-slice) pairs the batch loop processes. -/
def batchPairs : Nat → List Profile → List Str → List (List Profile × List Str)
  | _, [], _ => []
  | 0, _ :: _, _ => []
  | gas + 1, q :: qs, hs =>
    ((q :: qs).take 20, hs.take 20) :: batchPairs gas ((q :: qs).drop 20) (hs.drop 20)

/-- The output records one batch contributes, as a function of the oracle
response alone (the merge's output does not depend on the cache). -/
def recsOut (lastP : Profile) : List Profile → List Str → List Profile
  | [], _ => []
  | _ :: _, [] => []
  | r :: rs, _ :: hs => (if validKeys r then r else lastP) :: recsOut lastP rs hs

/-- The output segment of one batch. -/
def segOf (oracle : List Profile → OracleResp) (lastP : Profile)
    (bh : List Profile × List Str) : List Profile :=
  match oracle bh.1 with
  | .fail => bh.1
  | .notJson => bh.1
  | .ok rs => recsOut lastP rs bh.2

theorem phase1_hits (cache : Cache) (perfis : List Profile) :
    (phase1 cache perfis).1 = perfis.filterMap fun p => cacheGet cache (fpInput p) := by
  induction perfis with
  | nil => rfl
  | cons p ps ih =>
    cases h : cacheGet cache (fpInput p) with
    | some v => simp [phase1, List.filterMap_cons, h, ih]
    | none => simp [phase1, List.filterMap_cons, h, ih]

theorem phase1_queue (cache : Cache) (perfis : List Profile) :
    (phase1 cache perfis).2.1 =
      perfis.filter fun p => (cacheGet cache (fpInput p)).isNone := by
  induction perfis with
  | nil => rfl
  | cons p ps ih =>
    cases h : cacheGet cache (fpInput p) with
    | some v => simp [phase1, List.filter_cons, h, ih]
    | none => simp [phase1, List.filter_cons, h, ih]

theorem phase1_hashes (cache : Cache) (perfis : List Profile) :
    (phase1 cache perfis).2.2 = (phase1 cache perfis).2.1.map fpInput := by
  induction perfis with
  | nil => rfl
  | cons p ps ih =>
    cases h : cacheGet cache (fpInput p) with
    | some v => simp [phase1, h, ih]
    | none => simp [phase1, h, ih]

theorem phase1_queue_miss (cache : Cache) (perfis : List Profile) :
    ∀ p ∈ (phase1 cache perfis).2.1, cacheGet cache (fpInput p) = none := by
  intro p hp
  rw [phase1_queue] at hp
  have := (List.mem_filter.mp hp).2
  cases h : cacheGet cache (fpInput p) with
    | none => rfl
    | some v =>
      rw [h] at this
      simp at this

theorem runBatchesGo_calls (oracle : List Profile → OracleResp) (lastP : Profile) :
    ∀ (gas : Nat) (cache : Cache) (q : List Profile) (hs : List Str),
      (runBatchesGo oracle lastP gas cache q hs).2.2 =
        (batchPairs gas q hs).map Prod.fst := by
  intro gas
  induction gas with
  | zero =>
    intro cache q hs
    cases q <;> rfl
  | succ gas ih =>
    intro cache q hs
    cases q with
    | nil => rfl
    | cons x xs =>
      simp only [runBatchesGo, batchPairs, List.map_cons]
      rw [ih]

theorem processRecords_out (lastP : Profile) :
    ∀ (rs : List Profile) (hs : List Str) (cache : Cache),
      (processRecords lastP cache rs hs).1 = recsOut lastP rs hs := by
  intro rs
  induction rs with
  | nil =>
    intro hs cache
    rfl
  | cons r rs ih =>
    intro hs cache
    cases hs with
    | nil => rfl
    | cons h hrest =>
      by_cases hv : validKeys r = true
      · simp [processRecords, recsOut, hv, ih]
      · have hv2 : validKeys r = false := by
          cases hx : validKeys r
          · rfl
          · exact absurd hx hv
        simp [processRecords, recsOut, hv2, ih]

theorem runBatchesGo_out (oracle : List Profile → OracleResp) (lastP : Profile) :
    ∀ (gas : Nat) (cache : Cache) (q : List Profile) (hs : List Str),
      (runBatchesGo oracle lastP gas cache q hs).1 =
        (batchPairs gas q hs).flatMap (segOf oracle lastP) := by
  intro gas
  induction gas with
  | zero =>
    intro cache q hs
    cases q <;> rfl
  | succ gas ih =>
    intro cache q hs
    cases q with
    | nil => rfl
    | cons x xs =>
      simp only [runBatchesGo, batchPairs, List.flatMap_cons]
      rw [ih]
      congr 1
      show (processBatch oracle lastP cache ((x :: xs).take 20) (hs.take 20)).1 =
        segOf oracle lastP ((x :: xs).take 20, hs.take 20)
      unfold processBatch segOf
      cases oracle ((x :: xs).take 20) with
      | fail => rfl
      | notJson => rfl
      | ok rs =>
        exact processRecords_out lastP rs (hs.take 20) cache

theorem cacheGet_set_ne (c : Cache) (h k : Str) (v : Profile) (hne : ¬ k = h) :
    cacheGet (cacheSet c h v) k = cacheGet c k := by
  have hb : (k == h) = false := by simpa using hne
  simp [cacheGet, cacheSet, List.lookup, hb]

theorem processRecords_cache_ne (lastP : Profile) :
    ∀ (rs : List Profile) (hs : List Str) (cache : Cache) (k : Str), k ∉ hs →
      cacheGet (processRecords lastP cache rs hs).2 k = cacheGet cache k := by
  intro rs
  induction rs with
  | nil =>
    intro hs cache k hk
    rfl
  | cons r rs ih =>
    intro hs cache k hk
    cases hs with
    | nil => rfl
    | cons h hrest =>
      have hkh : ¬ k = h := fun hc => hk (by simp [hc])
      have hkr : k ∉ hrest := fun hc => hk (by simp [hc])
      by_cases hv : validKeys r = true
      · simp only [processRecords, hv, if_true]
        rw [ih hrest _ k hkr, cacheGet_set_ne _ _ _ _ hkh]
      · have hv2 : validKeys r = false := by
          cases hx : validKeys r
          · rfl
          · exact absurd hx hv
        simp only [processRecords, hv2, Bool.false_eq_true, if_false]
        exact ih hrest _ k hkr

theorem processBatch_cache_ne (oracle : List Profile → OracleResp) (lastP : Profile)
    (cache : Cache) (batch : List Profile) (hs : List Str) (k : Str) (hk : k ∉ hs) :
    cacheGet (processBatch oracle lastP cache batch hs).2 k = cacheGet cache k := by
  unfold processBatch
  cases oracle batch with
  | fail => rfl
  | notJson => rfl
  | ok rs => exact processRecords_cache_ne lastP rs hs cache k hk

theorem processBatch_cache_fail (oracle : List Profile → OracleResp) (lastP : Profile)
    (cache : Cache) (batch : List Profile) (hs : List Str)
    (hfail : isFailResp (oracle batch) = true) :
    (processBatch oracle lastP cache batch hs).2 = cache := by
  unfold processBatch
  cases ho : oracle batch with
  | fail => rfl
  | notJson => rfl
  | ok rs =>
    rw [ho] at hfail
    simp [isFailResp] at hfail

theorem runBatchesGo_cache_ne (oracle : List Profile → OracleResp) (lastP : Profile) :
    ∀ (gas : Nat) (cache : Cache) (q : List Profile) (hs : List Str) (k : Str), k ∉ hs →
      cacheGet (runBatchesGo oracle lastP gas cache q hs).2.1 k = cacheGet cache k := by
  intro gas
  induction gas with
  | zero =>
    intro cache q hs k hk
    cases q <;> rfl
  | succ gas ih =>
    intro cache q hs k hk
    cases q with
    | nil => rfl
    | cons x xs =>
      simp only [runBatchesGo]
      rw [ih _ _ _ k fun hc => hk (List.drop_subset 20 hs hc)]
      exact processBatch_cache_ne oracle lastP cache _ _ k
        fun hc => hk (List.take_subset 20 hs hc)

theorem nodup_take_not_drop {α : Type} (l : List α) (h : l.Nodup) (k : α)
    (hk : k ∈ l.take 20) : k ∉ l.drop 20 := by
  rw [← List.take_append_drop 20 l] at h
  exact (List.nodup_append.mp h).2.2 hk

theorem nodup_drop_not_take {α : Type} (l : List α) (h : l.Nodup) (k : α)
    (hk : k ∈ l.drop 20) : k ∉ l.take 20 := by
  intro hc
  exact nodup_take_not_drop l h k hc hk

theorem batchPairs_fst_subset :
    ∀ (gas : Nat) (q : List Profile) (hs : List Str) (bh : List Profile × List Str),
      bh ∈ batchPairs gas q hs → ∀ p ∈ bh.1, p ∈ q := by
  intro gas
  induction gas with
  | zero =>
    intro q hs bh hbh
    cases q <;> simp [batchPairs] at hbh
  | succ gas ih =>
    intro q hs bh hbh p hp
    cases q with
    | nil => simp [batchPairs] at hbh
    | cons x xs =>
      simp only [batchPairs, List.mem_cons] at hbh
      rcases hbh with rfl | hbh
      · exact List.take_subset _ _ hp
      · exact List.drop_subset _ _ (ih _ _ bh hbh p hp)

theorem batchPairs_snd :
    ∀ (gas : Nat) (q : List Profile) (bh : List Profile × List Str),
      bh ∈ batchPairs gas q (q.map fpInput) → bh.2 = bh.1.map fpInput := by
  intro gas
  induction gas with
  | zero =>
    intro q bh hbh
    cases q <;> simp [batchPairs] at hbh
  | succ gas ih =>
    intro q bh hbh
    cases q with
    | nil => simp [batchPairs] at hbh
    | cons x xs =>
      simp only [batchPairs, List.mem_cons] at hbh
      rcases hbh with rfl | hbh
      · simp [List.map_take]
      · rw [← List.map_drop] at hbh
        exact ih _ bh hbh

theorem runBatchesGo_fail_not_cached (oracle : List Profile → OracleResp) (lastP : Profile) :
    ∀ (gas : Nat) (cache : Cache) (q : List Profile) (hs : List Str),
      hs.Nodup → (∀ h ∈ hs, cacheGet cache h = none) →
      ∀ bh ∈ batchPairs gas q hs, isFailResp (oracle bh.1) = true →
      ∀ h ∈ bh.2, cacheGet (runBatchesGo oracle lastP gas cache q hs).2.1 h = none := by
  intro gas
  induction gas with
  | zero =>
    intro cache q hs _ _ bh hbh
    cases q <;> simp [batchPairs] at hbh
  | succ gas ih =>
    intro cache q hs hnd hmiss bh hbh hfail h hh
    cases q with
    | nil => simp [batchPairs] at hbh
    | cons x xs =>
      simp only [batchPairs, List.mem_cons] at hbh
      simp only [runBatchesGo]
      rcases hbh with rfl | hbh
      · have hpb : (processBatch oracle lastP cache ((x :: xs).take 20) (hs.take 20)).2 =
            cache := processBatch_cache_fail oracle lastP cache _ _ hfail
        rw [hpb]
        have hnotdrop : h ∉ hs.drop 20 := nodup_take_not_drop hs hnd h hh
        rw [runBatchesGo_cache_ne oracle lastP gas cache _ _ h hnotdrop]
        exact hmiss h (List.take_subset 20 hs hh)
      · have hnd2 : (hs.drop 20).Nodup := hnd.sublist (List.drop_sublist 20 hs)
        have hmiss2 : ∀ h2 ∈ hs.drop 20,
            cacheGet (processBatch oracle lastP cache ((x :: xs).take 20) (hs.take 20)).2 h2 =
              none := by
          intro h2 hh2
          rw [processBatch_cache_ne oracle lastP cache _ _ h2
            (nodup_drop_not_take hs hnd h2 hh2)]
          exact hmiss h2 (List.drop_subset 20 hs hh2)
        exact ih _ _ _ hnd2 hmiss2 bh hbh hfail h hh

/-- C2 (amended): every batch of the miss queue is sent to the oracle,
independently of earlier failures (the pipeline continues rather than
aborting); the output is the cache hits followed by the per-batch
segments; a batch whose oracle invocation fails or whose response fails to
parse contributes exactly its raw profiles, unmodified; and — provided the
input's fingerprints are pairwise distinct — none of a failing batch's
fingerprints is present in the cache afterward.  (Without the distinctness
proviso the cache part is false: a duplicated profile split across batches
can be cached by the other batch, per the counterexample.) -/
theorem batch_failure_fallback :
    ∀ (oracle : List Profile → OracleResp) (cache : Cache) (perfis : List Profile),
      (normalizar_dados oracle cache perfis).2.2 =
        (batchPairs (phase1 cache perfis).2.1.length (phase1 cache perfis).2.1
          (phase1 cache perfis).2.2).map Prod.fst ∧
      (normalizar_dados oracle cache perfis).1 = (phase1 cache perfis).1 ++
        (batchPairs (phase1 cache perfis).2.1.length (phase1 cache perfis).2.1
          (phase1 cache perfis).2.2).flatMap (segOf oracle (perfis.getLastD [])) ∧
      (∀ bh ∈ batchPairs (phase1 cache perfis).2.1.length (phase1 cache perfis).2.1
          (phase1 cache perfis).2.2,
        isFailResp (oracle bh.1) = true → segOf oracle (perfis.getLastD []) bh = bh.1) ∧
      ((perfis.map fpInput).Nodup →
        ∀ bh ∈ batchPairs (phase1 cache perfis).2.1.length (phase1 cache perfis).2.1
          (phase1 cache perfis).2.2,
        isFailResp (oracle bh.1) = true →
        ∀ p ∈ bh.1, cacheGet (normalizar_dados oracle cache perfis).2.1 (fpInput p) = none) := by
  intro oracle cache perfis
  refine ⟨?_, ?_, ?_, ?_⟩
  · exact runBatchesGo_calls oracle (perfis.getLastD []) _ cache _ _
  · show (phase1 cache perfis).1 ++ _ = _
    congr 1
    exact runBatchesGo_out oracle (perfis.getLastD []) _ cache _ _
  · intro bh _ hfail
    unfold segOf
    cases ho : oracle bh.1 with
    | fail => rfl
    | notJson => rfl
    | ok rs =>
      rw [ho] at hfail
      simp [isFailResp] at hfail
  · intro hnd bh hbh hfail p hp
    have hhash := phase1_hashes cache perfis
    have hndq : ((phase1 cache perfis).2.1.map fpInput).Nodup := by
      rw [phase1_queue]
      exact hnd.sublist ((List.filter_sublist perfis).map fpInput)
    have hmiss : ∀ h ∈ (phase1 cache perfis).2.2, cacheGet cache h = none := by
      intro h hh
      rw [hhash] at hh
      obtain ⟨q, hq, rfl⟩ := List.mem_map.mp hh
      exact phase1_queue_miss cache perfis q hq
    have hbh2 : bh ∈ batchPairs (phase1 cache perfis).2.1.length (phase1 cache perfis).2.1
        ((phase1 cache perfis).2.1.map fpInput) := by
      rw [← hhash]
      exact hbh
    have hsnd : bh.2 = bh.1.map fpInput := batchPairs_snd _ _ bh hbh2
    have hfp : fpInput p ∈ bh.2 := by
      rw [hsnd]
      exact List.mem_map_of_mem fpInput hp
    have hndh : (phase1 cache perfis).2.2.Nodup := by
      rw [hhash]
      exact hndq
    exact runBatchesGo_fail_not_cached oracle (perfis.getLastD []) _ cache _ _
      hndh hmiss bh hbh hfail (fpInput p) hfp

/-- A one-field profile used in the concrete pipeline runs. -/
def mkProf (s : String) : Profile := [(cs "nome", PyVal.vstr (cs s))]

/-- Witness for the amended C2 at a one-profile run whose single batch
fails: the profile comes back raw and its fingerprint is not cached. -/
theorem batch_failure_fallback_witness :
    cacheGet (normalizar_dados (fun _ => OracleResp.fail) [] [mkProf "w"]).2.1
      (fpInput (mkProf "w")) = none :=
  (batch_failure_fallback (fun _ => OracleResp.fail) [] [mkProf "w"]).2.2.2
    (by decide) ([mkProf "w"], [fpInput (mkProf "w")]) (by decide) (by decide)
    (mkProf "w") (by decide)

/-- A record completion used by the concrete oracles: adds the remaining
required fields to a raw profile. -/
def enrich (p : Profile) : Profile :=
  p ++ [(cs "local", PyVal.vstr (cs "x/y")), (cs "área", PyVal.vstr (cs "a")),
    (cs "interesses", PyVal.vstr (cs "b"))]

/-- Oracle for the C2 counterexample: normalizes full batches of 20 and
fails on the final short batch. -/
def oracleC2 : List Profile → OracleResp := fun b =>
  if b.length = 20 then .ok (b.map enrich) else .fail

/-- The 21-profile input of the C2 counterexample: 20 distinct profiles
followed by a duplicate of the first, so the duplicate lands alone in the
second batch. -/
def perfis21 : List Profile :=
  (["a", "b", "c", "d", "e", "f", "g", "h", "i", "j", "k", "l", "m", "n", "o",
    "p", "q", "r", "s", "t"].map mkProf) ++ [mkProf "a"]

/-- C2 counterexample: in the 21-profile run the second batch `[a]` is
called and fails, its output is the raw profile — but its fingerprint IS
present in the cache afterward, written by the successful first batch that
contained the duplicate occurrence of the same profile.  This refutes the
claim's "none of their fingerprints is present in the cache afterward" as
universally stated. -/
theorem batch_failure_claim_counterexample :
    oracleC2 [mkProf "a"] = .fail ∧
    (normalizar_dados oracleC2 [] perfis21).2.2.getLast? = some [mkProf "a"] ∧
    (normalizar_dados oracleC2 [] perfis21).1.getLast? = some (mkProf "a") ∧
    cacheGet (normalizar_dados oracleC2 [] perfis21).2.1 (fpInput (mkProf "a")) ≠ none := by
  refine ⟨rfl, by decide, by decide, by decide⟩

/-- C3: after a first run, for every input profile whose fingerprint is in
the resulting cache, a second run over the same collection sends no batch
containing that fingerprint to the oracle (zero oracle invocations for it),
and returns for it exactly the cached record: the second run's output
starts with the cache hits, computed by lookup in input order, and the
stored record occurs there.  (Lookup precedes queuing: only profiles whose
lookup misses are queued.) -/
theorem cache_idempotence :
    ∀ (oracle1 oracle2 : List Profile → OracleResp) (cache0 : Cache)
      (perfis : List Profile) (p v : Profile),
      p ∈ perfis →
      cacheGet (normalizar_dados oracle1 cache0 perfis).2.1 (fpInput p) = some v →
      ((∀ b ∈ (normalizar_dados oracle2 (normalizar_dados oracle1 cache0 perfis).2.1
          perfis).2.2, ∀ q ∈ b, fpInput q ≠ fpInput p) ∧
       v ∈ perfis.filterMap (fun q =>
         cacheGet (normalizar_dados oracle1 cache0 perfis).2.1 (fpInput q)) ∧
       (∃ rest, (normalizar_dados oracle2 (normalizar_dados oracle1 cache0 perfis).2.1
          perfis).1 =
         perfis.filterMap (fun q =>
           cacheGet (normalizar_dados oracle1 cache0 perfis).2.1 (fpInput q)) ++ rest)) := by
  intro o1 o2 c0 perfis p v hp hv
  refine ⟨?_, ?_, ?_⟩
  · intro b hb q hq hfp
    have hcalls : (normalizar_dados o2 (normalizar_dados o1 c0 perfis).2.1 perfis).2.2 =
        (batchPairs (phase1 (normalizar_dados o1 c0 perfis).2.1 perfis).2.1.length
          (phase1 (normalizar_dados o1 c0 perfis).2.1 perfis).2.1
          (phase1 (normalizar_dados o1 c0 perfis).2.1 perfis).2.2).map Prod.fst :=
      runBatchesGo_calls o2 (perfis.getLastD []) _ _ _ _
    rw [hcalls] at hb
    obtain ⟨bh, hbh, rfl⟩ := List.mem_map.mp hb
    have hqueue : q ∈ (phase1 (normalizar_dados o1 c0 perfis).2.1 perfis).2.1 :=
      batchPairs_fst_subset _ _ _ bh hbh q hq
    have hmiss := phase1_queue_miss (normalizar_dados o1 c0 perfis).2.1 perfis q hqueue
    rw [hfp, hv] at hmiss
    exact absurd hmiss (by simp)
  · exact List.mem_filterMap.mpr ⟨p, hp, hv⟩
  · refine ⟨(runBatchesGo o2 (perfis.getLastD [])
      (phase1 (normalizar_dados o1 c0 perfis).2.1 perfis).2.1.length
      (normalizar_dados o1 c0 perfis).2.1
      (phase1 (normalizar_dados o1 c0 perfis).2.1 perfis).2.1
      (phase1 (normalizar_dados o1 c0 perfis).2.1 perfis).2.2).1, ?_⟩
    show (phase1 (normalizar_dados o1 c0 perfis).2.1 perfis).1 ++ _ = _
    congr 1
    exact phase1_hits _ perfis

/-- A fully-keyed record stored by the C3 witness's first-run oracle. -/
def recFull : Profile :=
  [(cs "nome", PyVal.vstr (cs "w")), (cs "local", PyVal.vstr (cs "x/y")),
   (cs "área", PyVal.vstr (cs "a")), (cs "interesses", PyVal.vstr (cs "b"))]

/-- Witness for C3: a concrete first run caches `recFull` under the
fingerprint of `mkProf w`; the theorem instantiates there. -/
theorem cache_idempotence_witness :
    (∀ b ∈ (normalizar_dados (fun _ => OracleResp.fail)
        (normalizar_dados (fun _ => OracleResp.ok [recFull]) [] [mkProf "w"]).2.1
        [mkProf "w"]).2.2, ∀ q ∈ b, fpInput q ≠ fpInput (mkProf "w")) ∧
    recFull ∈ [mkProf "w"].filterMap (fun q =>
      cacheGet (normalizar_dados (fun _ => OracleResp.ok [recFull]) [] [mkProf "w"]).2.1
        (fpInput q)) ∧
    (∃ rest, (normalizar_dados (fun _ => OracleResp.fail)
        (normalizar_dados (fun _ => OracleResp.ok [recFull]) [] [mkProf "w"]).2.1
        [mkProf "w"]).1 =
      [mkProf "w"].filterMap (fun q =>
        cacheGet (normalizar_dados (fun _ => OracleResp.ok [recFull]) [] [mkProf "w"]).2.1
          (fpInput q)) ++ rest) :=
  cache_idempotence (fun _ => OracleResp.ok [recFull]) (fun _ => OracleResp.fail) []
    [mkProf "w"] (mkProf "w") recFull (by decide) (by decide)

/-- The C1 oracle: a parsed response whose first record is missing the
required keys and whose second record is complete. -/
def oracleC1 : List Profile → OracleResp :=
  fun _ => .ok [[(cs "x", PyVal.vstr (cs "y"))], enrich (mkProf "b2")]

/-- C1 (code bug): with two profiles in one batch and a response whose
FIRST record is rejected by the shape check, the claim (and the source's
own warning message "Mantendo o original") says the original first raw
profile is kept; instead the code appends the leaked loop variable
`perfil` — the last profile of the whole input — so the output is
`[second-profile, second-record]`: the first profile is lost and the
second appears twice (raw and normalized). -/
theorem rejected_record_wrong_fallback :
    validKeys [(cs "x", PyVal.vstr (cs "y"))] = false ∧
    (normalizar_dados oracleC1 [] [mkProf "a1", mkProf "b1"]).1 =
      [mkProf "b1", enrich (mkProf "b2")] ∧
    mkProf "a1" ∉ (normalizar_dados oracleC1 [] [mkProf "a1", mkProf "b1"]).1 := by
  refine ⟨by decide, by decide, by decide⟩

end Dash
